import Mathlib

/-!
Verification of the minijson lexer and parser.

Shallow embedding of `src/lexer.rs`, `src/parser.rs` and `src/lib.rs`.
Source text is modelled as `List Char` (a Rust `&str` is a sequence of
Unicode scalar values); byte indexing into the UTF-8 representation is
made explicit via `utf8Len`/`takeBytes`, because the source slices by
byte index and slicing off a character boundary panics in Rust.
Rust panics are modelled as `Option.none` / `PR.panic`.
-/

namespace MiniJson

/-- Left brace character, by code point. -/
def lbrace : Char := Char.ofNat 0x7b

/-- Right brace character, by code point. -/
def rbrace : Char := Char.ofNat 0x7d

/-- UTF-8 byte length of one Unicode scalar value (Rust `char::len_utf8`). -/
def utf8Len (c : Char) : Nat :=
  if c.toNat < 0x80 then 1
  else if c.toNat < 0x800 then 2
  else if c.toNat < 0x10000 then 3
  else 4

/-- UTF-8 byte length of a string (Rust `str::len`). -/
def byteLen (s : List Char) : Nat := (s.map utf8Len).sum

/-- The characters that make up the first `n` bytes of the UTF-8
representation of `s`, or `none` when `n` does not fall on a character
boundary or exceeds the string: Rust `&s[..n]`, which panics there. -/
def takeBytes (s : List Char) (n : Nat) : Option (List Char) :=
  match s, n with
  | _, 0 => some []
  | [], _ => none
  | c :: cs, n => if utf8Len c ≤ n then (takeBytes cs (n - utf8Len c)).map (fun l => c :: l) else none

/-- Modelled from the Rust standard library: `char::is_whitespace`, i.e.
the Unicode `White_Space` property.  This is the complete White_Space set. -/
def rustIsWhitespace (c : Char) : Bool :=
  let n := c.toNat
  n == 0x09 || n == 0x0A || n == 0x0B || n == 0x0C || n == 0x0D || n == 0x20 ||
  n == 0x85 || n == 0xA0 || n == 0x1680 ||
  (decide (0x2000 ≤ n) && decide (n ≤ 0x200A)) ||
  n == 0x2028 || n == 0x2029 || n == 0x202F || n == 0x205F || n == 0x3000

/-- Modelled from the Rust standard library: `char::is_alphabetic`, i.e. the
Unicode `Alphabetic` property.  The full property covers thousands of code
point ranges; this model is a sound under-approximation restricted to ranges
relevant here (ASCII and Latin-1 letters, Latin Extended-A, Greek and
Cyrillic letters, kana, and the CJK unified ideographs): every character it
accepts has the Unicode Alphabetic property. -/
def rustIsAlphabetic (c : Char) : Bool :=
  let n := c.toNat
  (decide (0x41 ≤ n) && decide (n ≤ 0x5A)) ||
  (decide (0x61 ≤ n) && decide (n ≤ 0x7A)) ||
  (decide (0xC0 ≤ n) && decide (n ≤ 0xD6)) ||
  (decide (0xD8 ≤ n) && decide (n ≤ 0xF6)) ||
  (decide (0xF8 ≤ n) && decide (n ≤ 0x17F)) ||
  (decide (0x391 ≤ n) && decide (n ≤ 0x3A1)) ||
  (decide (0x3B1 ≤ n) && decide (n ≤ 0x3C9)) ||
  (decide (0x410 ≤ n) && decide (n ≤ 0x44F)) ||
  (decide (0x3041 ≤ n) && decide (n ≤ 0x3096)) ||
  (decide (0x30A1 ≤ n) && decide (n ≤ 0x30FA)) ||
  (decide (0x4E00 ≤ n) && decide (n ≤ 0x9FFF))

/-- The lexical categories (`Meta` in `src/lexer.rs`).  A Rust
`NumberLiteral(f64)` is represented by the accepted source slice the `f64`
was parsed from (floating point values themselves are not modelled; no
claim depends on identifying distinct slices denoting the same `f64`). -/
inductive Meta where
  | leftBrace
  | leftSquare
  | rightBrace
  | rightSquare
  | comma
  | colon
  | stringLiteral (s : List Char)
  | boolLiteral (b : Bool)
  | numberLiteral (lit : List Char)
  | nullLiteral
  | eof
  | error (msg : String)
  deriving DecidableEq, Repr

/-- `Meta::meta_type` from `src/lexer.rs`: the category name used for
lookahead comparison and error messages. -/
def metaType : Meta → String
  | .boolLiteral _ => "bool"
  | .stringLiteral _ => "string"
  | .numberLiteral _ => "number"
  | .error _ => "Error"
  | .leftBrace => "'\x7b'"
  | .rightBrace => "'\x7d'"
  | .leftSquare => "'['"
  | .rightSquare => "']'"
  | .colon => "':'"
  | .nullLiteral => "null"
  | .comma => ","
  | .eof => "EOF"

/-- A terminal token category: end-of-input or lexical error. -/
def isTerminal : Meta → Bool
  | .eof => true
  | .error _ => true
  | _ => false

/-- `Token` from `src/lexer.rs`. -/
structure Token where
  lexeme : Meta
  literal : List Char
  line : Nat
  column : Nat
  deriving DecidableEq, Repr

/-- `Lexer` from `src/lexer.rs`: the remaining input, position counters and
the done flag. -/
structure Lexer where
  start : List Char
  line : Nat
  column : Nat
  done : Bool
  deriving DecidableEq, Repr

/-- `Lexer::new`. -/
def initLexer (source : List Char) : Lexer :=
  { start := source, line := 1, column := 1, done := false }

/-- `Lexer::manipulate_states`: drop the consumed literal (a prefix of the
remaining input) and advance the line/column counters over it. -/
def manipulate_states (lx : Lexer) (literal : List Char) : Lexer :=
  if literal.isEmpty then lx
  else
    let counters := literal.foldl
      (fun (p : Nat × Nat) c => if c = '\n' then (p.1 + 1, 1) else (p.1, p.2 + 1))
      (0, lx.column)
    { lx with
      start := lx.start.drop literal.length
      line := lx.line + counters.1
      column := counters.2 }

/-- `Lexer::mk_token`: build a token at the current position, then advance
the internal state past the literal. -/
def mk_token (lx : Lexer) (meta : Meta) (literal : List Char) : Token × Lexer :=
  ({ lexeme := meta, literal := literal, line := lx.line, column := lx.column },
   manipulate_states lx literal)

/-- `Lexer::mk_eof`: set done, emit the end-of-input token. -/
def mk_eof (lx : Lexer) : Token × Lexer :=
  mk_token { lx with done := true } Meta.eof []

/-- `Lexer::mk_error`: set done, emit an error token. -/
def mk_error (lx : Lexer) (msg : String) (literal : List Char) : Token × Lexer :=
  mk_token { lx with done := true } (Meta.error msg) literal

/-- `Lexer::skip_whitespaces`.  The source counts whitespace *characters*
but then slices the input at that count as a *byte* index
(`&self.start[0..space_counts]`); `takeBytes` returns `none` (Rust: panic)
when that index is not a character boundary. -/
def skip_whitespaces (lx : Lexer) : Option Lexer :=
  if lx.done then some lx
  else
    let space_counts := (lx.start.takeWhile rustIsWhitespace).length
    if space_counts = 0 then some lx
    else
      match takeBytes lx.start space_counts with
      | none => none
      | some lit => some (mk_token lx Meta.eof lit).2

/-- `Lexer::identifier`: inspect at most the first five ASCII-alphabetic
characters and match the resulting slice against the keywords. -/
def identifier (lx : Lexer) : Token × Lexer :=
  let idx := min ((lx.start.takeWhile Char.isAlpha).length) 5
  let id := lx.start.take idx
  if id = "true".toList then mk_token lx (Meta.boolLiteral true) id
  else if id = "false".toList then mk_token lx (Meta.boolLiteral false) id
  else if id = "null".toList then mk_token lx Meta.nullLiteral id
  else mk_error lx "Unexpected identifier" id

/-- The scanning loop of `Lexer::string`.  `rest` is the input after the
first `n` characters of `lx.start` (the source tracks the corresponding
byte index `idx`; every slice it takes is character-aligned, so the model
slices by character count).  The source checks for a newline *before*
honouring `skip_next`, and the `skip_next` test inside the `'"'` arm of the
source is unreachable (the flag was consumed earlier in the iteration). -/
def stringLoop (lx : Lexer) : List Char → Nat → Bool → Token × Lexer
  | [], n, _ => mk_error lx "Undetermined string literal" (lx.start.take n)
  | c :: cs, n, skip_next =>
    if c = '\n' then mk_error lx "Unexpected newline" (lx.start.take n)
    else if skip_next then stringLoop lx cs (n + 1) false
    else if c = '\\' then stringLoop lx cs (n + 1) true
    else if c = '"' then
      mk_token lx (Meta.stringLiteral (((lx.start.take (n + 1)).drop 1).dropLast))
        (lx.start.take (n + 1))
    else stringLoop lx cs (n + 1) false

/-- `Lexer::string`: consume the opening quote, then scan. -/
def stringScan (lx : Lexer) : Token × Lexer :=
  stringLoop lx (lx.start.drop 1) 1 false

/-- Rust `char::is_digit(10)` / `is_ascii_digit`: an ASCII decimal digit. -/
def isDigit10 (c : Char) : Bool :=
  decide (48 ≤ c.toNat) && decide (c.toNat ≤ 57)

/-- All characters are ASCII digits. -/
def isDigits (l : List Char) : Bool := l.all isDigit10

/-- Not a decimal point. -/
def notDotChar (c : Char) : Bool := decide (c ≠ '.')

/-- Not an exponent marker. -/
def notExpChar (c : Char) : Bool := decide (c ≠ 'e') && decide (c ≠ 'E')

/-- Exponent tail of a float literal: optional sign then one or more digits. -/
def expGood : List Char → Bool
  | [] => false
  | c :: t => if c = '+' ∨ c = '-' then !t.isEmpty && isDigits t else isDigits (c :: t)

/-- Mantissa of a float literal: `Digits '.'? Digits?` or `'.' Digits`. -/
def mantissaOk (l : List Char) : Bool :=
  let pre := l.takeWhile notDotChar
  let rest := l.drop pre.length
  match pre, rest with
  | [], '.' :: ds => !ds.isEmpty && isDigits ds
  | [], _ => false
  | _, [] => isDigits pre
  | _, '.' :: ds => isDigits pre && isDigits ds
  | _, _ => false

/-- Lowercase an ASCII letter. -/
def asciiLower (c : Char) : Char :=
  if decide ('A' ≤ c) && decide (c ≤ 'Z') then Char.ofNat (c.toNat + 32) else c

/-- Modelled from the Rust standard library documentation of
`f64::from_str`: the set of strings the conversion accepts —
`Sign? ( 'inf' | 'infinity' | 'nan' | Number )` (keywords case-insensitive),
`Number ::= Digits '.'? Digits? Exp? | '.' Digits Exp?`,
`Exp ::= ('e'|'E') Sign? Digits`.  The conversion itself (rounding to the
nearest `f64`) is not modelled; only its success is. -/
def f64ParseOk (s : List Char) : Bool :=
  let s1 := if s.head? = some '+' ∨ s.head? = some '-' then s.drop 1 else s
  let low := s1.map asciiLower
  (low = "inf".toList || low = "infinity".toList || low = "nan".toList) ||
  (let m := s1.takeWhile notExpChar
   let r := s1.drop m.length
   mantissaOk m &&
     (match r with
      | [] => true
      | _ :: e => expGood e))

/-- The digit-scanning tail of `Lexer::number`, entered after the optional
leading `-` (`neg` is 1 when a `-` was consumed and `s1` is the input after
it): digits, then optionally `.` and more digits.  All characters the scan
walks over are one byte, so the source's byte index `idx` coincides with
the character count.  `literal.parse::<f64>().unwrap()` is modelled by
`f64ParseOk`: the `none` result is the panic of the `unwrap`. -/
def numberTail (lx : Lexer) (neg : Nat) (s1 : List Char) : Option (Token × Lexer) :=
  let d1 := (s1.takeWhile isDigit10).length
  let s2 := s1.drop d1
  if s2.head? ≠ some '.' then
    let literal := lx.start.take (neg + d1)
    if f64ParseOk literal then some (mk_token lx (Meta.numberLiteral literal) literal)
    else none
  else
    let s3 := s2.drop 1
    match s3.head? with
    | none => some (mk_error lx "Unexpected EOF after '.'" (lx.start.take (neg + d1 + 1)))
    | some c =>
      if ¬ isDigit10 c then
        some (mk_error lx "Expect numeric literal after '.'" (lx.start.take (neg + d1 + 1)))
      else
        let d2 := (s3.takeWhile isDigit10).length
        let literal := lx.start.take (neg + d1 + 1 + d2)
        if f64ParseOk literal then some (mk_token lx (Meta.numberLiteral literal) literal)
        else none

/-- `Lexer::number`: the optional leading `-` (with its two error cases),
then the digit tail. -/
def number (lx : Lexer) : Option (Token × Lexer) :=
  if lx.start.head? = some '-' then
    match (lx.start.drop 1).head? with
    | none => some (mk_error lx "Unexpected EOF after '-'" (lx.start.take 1))
    | some c =>
      if ¬ isDigit10 c then
        some (mk_error lx "Expect numeric literal after '-'" (lx.start.take 1))
      else numberTail lx 1 (lx.start.drop 1)
  else numberTail lx 0 lx.start

/-- Package a scanner result as the lexer state plus the produced token. -/
def emit (p : Token × Lexer) : Lexer × Option Token := (p.2, some p.1)

/-- The dispatch of `Lexer::next_token` on the first remaining character
`c`, following the source's `match` arm order. -/
def dispatchChar (lx1 : Lexer) (c : Char) : Option (Lexer × Option Token) :=
  if c = '[' then some (emit (mk_token lx1 Meta.leftSquare ['[']))
  else if c = ']' then some (emit (mk_token lx1 Meta.rightSquare [']']))
  else if c = lbrace then some (emit (mk_token lx1 Meta.leftBrace [lbrace]))
  else if c = rbrace then some (emit (mk_token lx1 Meta.rightBrace [rbrace]))
  else if c = ',' then some (emit (mk_token lx1 Meta.comma [',']))
  else if c = ':' then some (emit (mk_token lx1 Meta.colon [':']))
  else if isDigit10 c || c = '-' then (number lx1).map emit
  else if c = '"' then some (emit (stringScan lx1))
  else if rustIsAlphabetic c then some (emit (identifier lx1))
  else some (emit (mk_error lx1 "Unexpected character" [c]))

/-- The body of `Lexer::next_token` after whitespace skipping: end of
input or single-character dispatch. -/
def dispatch (lx1 : Lexer) : Option (Lexer × Option Token) :=
  match lx1.start with
  | [] => some (emit (mk_eof lx1))
  | c :: _ => dispatchChar lx1 c

/-- `Lexer::next_token`.  Outer `none` models a Rust panic;
`some (lx, none)` models `Option::None` of the source (the exhausted
stream). -/
def next_token (lx : Lexer) : Option (Lexer × Option Token) :=
  if lx.done then some (lx, none)
  else
    match skip_whitespaces lx with
    | none => none
    | some lx1 => dispatch lx1

/-- Collect the whole token stream: iterate `next_token` until the stream
is exhausted.  `none` when a step panics or the fuel runs out. -/
def lexAll : Nat → Lexer → Option (List Token)
  | 0, _ => none
  | Nat.succ f, lx =>
    match next_token lx with
    | none => none
    | some (_, none) => some []
    | some (lx1, some t) => (lexAll f lx1).map (fun ts => t :: ts)

/-- `Json` from `src/lib.rs`.  `Number(f64)` carries the accepted source
slice (see `Meta.numberLiteral`); `Object(HashMap<String, Json>)` is
modelled as a key-unique association list built by `hmInsert`. -/
inductive Json where
  | null
  | bool (b : Bool)
  | number (lit : List Char)
  | string (s : List Char)
  | array (xs : List Json)
  | object (m : List (List Char × Json))

instance : Inhabited Json := ⟨Json.null⟩

/-- Modelled from the Rust standard library: `HashMap::insert`, which
overwrites the value stored under an existing key. -/
def hmInsert (m : List (List Char × Json)) (k : List Char) (v : Json) :
    List (List Char × Json) :=
  if m.any (fun p => p.1 = k) then m.map (fun p => if p.1 = k then (k, v) else p)
  else m ++ [(k, v)]

/-- Modelled from the Rust standard library: `HashMap::get`. -/
def hmFind (m : List (List Char × Json)) (k : List Char) : Option Json :=
  match m with
  | [] => none
  | p :: r => if p.1 = k then some p.2 else hmFind r k

/-- `Error` from `src/parser.rs`. -/
structure PError where
  msg : String
  line : Nat
  column : Nat
  deriving DecidableEq, Repr

/-- Result of a parser function: success, parse error, Rust panic
(the `panic!("Impossible")` branches and `peek`/`next` on an exhausted
stream), or out of fuel (an artefact of the embedding's explicit fuel,
distinct from any behaviour of the source). -/
inductive PR (α : Type) where
  | ok (a : α)
  | err (e : PError)
  | panic
  | nofuel
  deriving DecidableEq, Repr

/-- Sequencing on `PR`: propagate errors, panics and fuel exhaustion. -/
def PR.andThen : PR α → (α → PR β) → PR β
  | .ok a, k => k a
  | .err e, _ => .err e
  | .panic, _ => .panic
  | .nofuel, _ => .nofuel

/-- `Parser::consume` over the remaining token list: compare the peeked
token's category with the expected one; on a match advance past it, else
surface a lexical error verbatim or build a structural mismatch error.
An empty list means the underlying stream is exhausted, so the source's
`peek_unchecked` would panic. -/
def pconsume (expect_lexeme : Meta) (ts : List Token) : PR (Token × List Token) :=
  match ts with
  | [] => .panic
  | t :: rest =>
    if metaType t.lexeme = metaType expect_lexeme then .ok (t, rest)
    else
      match t.lexeme with
      | .error msg => .err { msg := msg, line := t.line, column := t.column }
      | _ => .err { msg := "Expect " ++ metaType expect_lexeme ++ ", got " ++ metaType t.lexeme,
                    line := t.line, column := t.column }

/-- `Parser::primary`: advance past exactly one token and map it to a leaf
value, or an error. -/
def pprimary (ts : List Token) : PR (Json × List Token) :=
  match ts with
  | [] => .panic
  | t :: rest =>
    match t.lexeme with
    | .nullLiteral => .ok (.null, rest)
    | .boolLiteral b => .ok (.bool b, rest)
    | .stringLiteral s => .ok (.string s, rest)
    | .numberLiteral n => .ok (.number n, rest)
    | .error msg => .err { msg := msg, line := t.line, column := t.column }
    | m => .err { msg := "Expect Primary, got " ++ metaType m, line := t.line, column := t.column }

mutual

/-- `Parser::json`: dispatch on the peeked token. -/
def pjson : Nat → List Token → PR (Json × List Token)
  | 0, _ => .nofuel
  | Nat.succ f, ts =>
    match ts with
    | [] => .panic
    | t :: _ =>
      match t.lexeme with
      | .leftBrace => pobject f ts
      | .leftSquare => parray f ts
      | _ => pprimary ts

/-- `Parser::object`. -/
def pobject : Nat → List Token → PR (Json × List Token)
  | 0, _ => .nofuel
  | Nat.succ f, ts =>
    (pconsume .leftBrace ts).andThen fun x =>
      match x.2 with
      | [] => .panic
      | t :: _ =>
        if t.lexeme = .rightBrace then
          (pconsume .rightBrace x.2).andThen fun y => .ok (.object [], y.2)
        else
          (pread_kv f x.2).andThen fun y =>
            pobjLoop f (hmInsert [] y.1.1 y.1.2) y.2

/-- The `while peek == Comma` loop of `Parser::object`. -/
def pobjLoop : Nat → List (List Char × Json) → List Token → PR (Json × List Token)
  | 0, _, _ => .nofuel
  | Nat.succ f, m, ts =>
    match ts with
    | [] => .panic
    | t :: rest =>
      if t.lexeme = .comma then
        (pread_kv f rest).andThen fun y =>
          pobjLoop f (hmInsert m y.1.1 y.1.2) y.2
      else
        (pconsume .rightBrace ts).andThen fun y => .ok (.object m, y.2)

/-- `Parser::read_kv`: a `STRING ':' Json` pair.  The `else` of the source's
`let ... else panic!("Impossible")` destructure is the `.panic` arm. -/
def pread_kv : Nat → List Token → PR ((List Char × Json) × List Token)
  | 0, _ => .nofuel
  | Nat.succ f, ts =>
    (pconsume (.stringLiteral []) ts).andThen fun x =>
      match x.1.lexeme with
      | .stringLiteral key =>
        (pconsume .colon x.2).andThen fun y =>
          (pjson f y.2).andThen fun z => .ok ((key, z.1), z.2)
      | _ => .panic

/-- `Parser::array`. -/
def parray : Nat → List Token → PR (Json × List Token)
  | 0, _ => .nofuel
  | Nat.succ f, ts =>
    (pconsume .leftSquare ts).andThen fun x =>
      match x.2 with
      | [] => .panic
      | t :: _ =>
        if t.lexeme = .rightSquare then
          (pconsume .rightSquare x.2).andThen fun y => .ok (.array [], y.2)
        else
          (pjson f x.2).andThen fun y =>
            parrLoop f [y.1] y.2

/-- The `while peek == Comma` loop of `Parser::array`. -/
def parrLoop : Nat → List Json → List Token → PR (Json × List Token)
  | 0, _, _ => .nofuel
  | Nat.succ f, acc, ts =>
    match ts with
    | [] => .panic
    | t :: rest =>
      if t.lexeme = .comma then
        (pjson f rest).andThen fun y =>
          parrLoop f (acc ++ [y.1]) y.2
      else
        (pconsume .rightSquare ts).andThen fun y => .ok (.array acc, y.2)

end

/-- `Parser::parse`: one `Json` production followed by a mandatory
end-of-input token. -/
def pparse (f : Nat) (ts : List Token) : PR Json :=
  (pjson f ts).andThen fun x =>
    (pconsume .eof x.2).andThen fun _ => .ok x.1

/-- The number-scan grammar as the specification words it: an optional
leading `-`, one or more digits, optionally a `.` followed by one or more
digits. -/
def scanGrammar (l : List Char) : Bool :=
  let body := if l.head? = some '-' then l.drop 1 else l
  let d1 := body.takeWhile isDigit10
  let rest := body.drop d1.length
  !d1.isEmpty &&
    (match rest with
     | [] => true
     | r0 :: ds => decide (r0 = '.') && (!ds.isEmpty && isDigits ds))

/-- The body of a string literal (after the opening quote) that runs to end
of input with no raw newline and no unescaped closing quote: the condition
under which the string scan reports an unterminated literal. -/
def unterminatedScan : List Char → Bool → Bool
  | [], _ => true
  | c :: cs, skip =>
    if c = '\n' then false
    else if skip then unterminatedScan cs false
    else if c = '\\' then unterminatedScan cs true
    else if c = '"' then false
    else unterminatedScan cs false

/-- The token list still holds a terminal (end-of-input or error) token:
the invariant of every stream the parser works on. -/
def hasTerm (ts : List Token) : Prop := ∃ t ∈ ts, isTerminal t.lexeme = true

/-! ## Basic lemmas about the lexer state machine -/

theorem manipulate_states_done (lx : Lexer) (l : List Char) :
    (manipulate_states lx l).done = lx.done := by
  unfold manipulate_states
  split <;> rfl

theorem mk_token_done (lx : Lexer) (m : Meta) (l : List Char) :
    ((mk_token lx m l).2).done = lx.done :=
  manipulate_states_done lx l

theorem mk_token_lexeme (lx : Lexer) (m : Meta) (l : List Char) :
    ((mk_token lx m l).1).lexeme = m := rfl

theorem mk_eof_done (lx : Lexer) : ((mk_eof lx).2).done = true := by
  unfold mk_eof
  rw [mk_token_done]

theorem mk_error_done (lx : Lexer) (msg : String) (l : List Char) :
    ((mk_error lx msg l).2).done = true := by
  unfold mk_error
  rw [mk_token_done]

theorem skip_whitespaces_done {lx lx1 : Lexer} (h : skip_whitespaces lx = some lx1) :
    lx1.done = lx.done := by
  simp only [skip_whitespaces] at h
  split at h
  · cases h; rfl
  · split at h
    · cases h; rfl
    · split at h
      · cases h
      · cases h; rw [mk_token_done]

/-- Post-condition of one scanner step relating the produced token's
category to the done flag. -/
def scanSpec (lx : Lexer) (r : Token × Lexer) : Prop :=
  (isTerminal r.1.lexeme = true → r.2.done = true) ∧
  (isTerminal r.1.lexeme = false → r.2.done = lx.done)

theorem mk_token_scanSpec (lx : Lexer) (m : Meta) (l : List Char)
    (h : isTerminal m = false) : scanSpec lx (mk_token lx m l) := by
  constructor
  · intro ht
    rw [mk_token_lexeme] at ht
    rw [ht] at h
    cases h
  · intro _
    exact mk_token_done lx m l

theorem mk_error_scanSpec (lx : Lexer) (msg : String) (l : List Char) :
    scanSpec lx (mk_error lx msg l) := by
  constructor
  · intro _
    exact mk_error_done lx msg l
  · intro hf
    cases hf

theorem mk_eof_scanSpec (lx : Lexer) : scanSpec lx (mk_eof lx) := by
  constructor
  · intro _
    exact mk_eof_done lx
  · intro hf
    cases hf

theorem identifier_scanSpec (lx : Lexer) : scanSpec lx (identifier lx) := by
  simp only [identifier]
  split
  · exact mk_token_scanSpec lx _ _ rfl
  · split
    · exact mk_token_scanSpec lx _ _ rfl
    · split
      · exact mk_token_scanSpec lx _ _ rfl
      · exact mk_error_scanSpec lx _ _

theorem stringLoop_scanSpec (lx : Lexer) :
    ∀ (rest : List Char) (n : Nat) (skip : Bool), scanSpec lx (stringLoop lx rest n skip) := by
  intro rest
  induction rest with
  | nil => intro n skip; exact mk_error_scanSpec lx _ _
  | cons c cs ih =>
    intro n skip
    unfold stringLoop
    split
    · exact mk_error_scanSpec lx _ _
    · split
      · exact ih _ _
      · split
        · exact ih _ _
        · split
          · exact mk_token_scanSpec lx _ _ rfl
          · exact ih _ _

theorem stringScan_scanSpec (lx : Lexer) : scanSpec lx (stringScan lx) :=
  stringLoop_scanSpec lx _ _ _

theorem numberTail_scanSpec {lx : Lexer} {neg : Nat} {s1 : List Char} {r : Token × Lexer}
    (h : numberTail lx neg s1 = some r) : scanSpec lx r := by
  simp only [numberTail] at h
  split at h
  · split at h
    · cases h; exact mk_token_scanSpec lx _ _ rfl
    · cases h
  · split at h
    · cases h; exact mk_error_scanSpec lx _ _
    · split at h
      · cases h; exact mk_error_scanSpec lx _ _
      · split at h
        · cases h; exact mk_token_scanSpec lx _ _ rfl
        · cases h

theorem number_scanSpec {lx : Lexer} {r : Token × Lexer}
    (h : number lx = some r) : scanSpec lx r := by
  unfold number at h
  split at h
  · split at h
    · cases h; exact mk_error_scanSpec lx _ _
    · split at h
      · cases h; exact mk_error_scanSpec lx _ _
      · exact numberTail_scanSpec h
  · exact numberTail_scanSpec h

theorem next_token_done_eq {lx : Lexer} (h : lx.done = true) :
    next_token lx = some (lx, none) := by
  unfold next_token
  rw [if_pos h]

theorem dispatch_nil {lx1 : Lexer} (h : lx1.start = []) :
    dispatch lx1 = some (emit (mk_eof lx1)) := by
  unfold dispatch
  rw [h]

theorem dispatch_cons {lx1 : Lexer} {c : Char} {cs : List Char} (h : lx1.start = c :: cs) :
    dispatch lx1 = dispatchChar lx1 c := by
  unfold dispatch
  rw [h]

theorem next_token_eq {lx : Lexer} {lx1 : Lexer} (h : lx.done = false)
    (hsw : skip_whitespaces lx = some lx1) : next_token lx = dispatch lx1 := by
  unfold next_token
  rw [if_neg (by simp [h]), hsw]

theorem next_token_panic {lx : Lexer} (h : lx.done = false)
    (hsw : skip_whitespaces lx = none) : next_token lx = none := by
  unfold next_token
  rw [if_neg (by simp [h]), hsw]

theorem dispatchChar_spec {lx1 : Lexer} {c : Char} {lx' : Lexer} {o : Option Token}
    (he : dispatchChar lx1 c = some (lx', o)) :
    ∃ X : Token × Lexer, scanSpec lx1 X ∧ (lx', o) = emit X := by
  unfold dispatchChar at he
  split_ifs at he with h1 h2 h3 h4 h5 h6 h7 h8 h9
  · exact ⟨_, mk_token_scanSpec lx1 Meta.leftSquare _ rfl, (Option.some_inj.mp he).symm⟩
  · exact ⟨_, mk_token_scanSpec lx1 Meta.rightSquare _ rfl, (Option.some_inj.mp he).symm⟩
  · exact ⟨_, mk_token_scanSpec lx1 Meta.leftBrace _ rfl, (Option.some_inj.mp he).symm⟩
  · exact ⟨_, mk_token_scanSpec lx1 Meta.rightBrace _ rfl, (Option.some_inj.mp he).symm⟩
  · exact ⟨_, mk_token_scanSpec lx1 Meta.comma _ rfl, (Option.some_inj.mp he).symm⟩
  · exact ⟨_, mk_token_scanSpec lx1 Meta.colon _ rfl, (Option.some_inj.mp he).symm⟩
  · rcases Option.map_eq_some'.mp he with ⟨r, hr, hre⟩
    exact ⟨r, number_scanSpec hr, hre.symm⟩
  · exact ⟨_, stringScan_scanSpec lx1, (Option.some_inj.mp he).symm⟩
  · exact ⟨_, identifier_scanSpec lx1, (Option.some_inj.mp he).symm⟩
  · exact ⟨_, mk_error_scanSpec lx1 _ _, (Option.some_inj.mp he).symm⟩

theorem next_token_spec {lx lx' : Lexer} {o : Option Token}
    (h : lx.done = false) (he : next_token lx = some (lx', o)) :
    ∃ t, o = some t ∧
      (isTerminal t.lexeme = true → lx'.done = true) ∧
      (isTerminal t.lexeme = false → lx'.done = false) := by
  cases hsw : skip_whitespaces lx with
  | none => rw [next_token_panic h hsw] at he; cases he
  | some lx1 =>
    rw [next_token_eq h hsw] at he
    have hd1 : lx1.done = false := by rw [skip_whitespaces_done hsw, h]
    have emit_case : ∀ X : Token × Lexer, scanSpec lx1 X → (lx', o) = emit X →
        ∃ t, o = some t ∧
          (isTerminal t.lexeme = true → lx'.done = true) ∧
          (isTerminal t.lexeme = false → lx'.done = false) := by
      intro X hX hXe
      have ho : o = some X.1 := congrArg Prod.snd hXe
      have hl : lx' = X.2 := congrArg Prod.fst hXe
      refine ⟨X.1, ho, ?_, ?_⟩
      · intro ht; rw [hl]; exact hX.1 ht
      · intro hf; rw [hl, hX.2 hf, hd1]
    cases hst : lx1.start with
    | nil =>
      rw [dispatch_nil hst] at he
      exact emit_case _ (mk_eof_scanSpec lx1) (Option.some_inj.mp he).symm
    | cons c cs =>
      rw [dispatch_cons hst] at he
      rcases dispatchChar_spec he with ⟨X, hX, hXe⟩
      exact emit_case X hX hXe

/-! ## Lemmas about the object mapping -/

theorem hmFind_cons_self (k : List Char) (v : Json) (r : List (List Char × Json)) :
    hmFind ((k, v) :: r) k = some v := by
  have h0 : hmFind ((k, v) :: r) k = if k = k then some v else hmFind r k := rfl
  rw [h0, if_pos rfl]

theorem hmFind_cons_other {k k' : List Char} (h : k' ≠ k) (v : Json)
    (r : List (List Char × Json)) : hmFind ((k', v) :: r) k = hmFind r k := by
  have h0 : hmFind ((k', v) :: r) k = if k' = k then some v else hmFind r k := rfl
  rw [h0, if_neg h]

theorem hmFind_map_replace {k : List Char} {v : Json} :
    ∀ m : List (List Char × Json), m.any (fun p => p.1 = k) = true →
      hmFind (m.map (fun p => if p.1 = k then (k, v) else p)) k = some v := by
  intro m
  induction m with
  | nil => intro h; cases h
  | cons p r ih =>
    intro h
    by_cases hp : p.1 = k
    · rw [List.map_cons, if_pos hp, hmFind_cons_self]
    · rw [List.map_cons, if_neg hp]
      have hpr : (if p.1 = k then (k, v) else p) = p := if_neg hp
      rw [hpr] at *
      rw [show p = (p.1, p.2) from rfl, hmFind_cons_other hp]
      apply ih
      rw [List.any_cons] at h
      simpa [hp] using h

theorem hmFind_append_new {k : List Char} {v : Json} :
    ∀ m : List (List Char × Json), m.any (fun p => p.1 = k) = false →
      hmFind (m ++ [(k, v)]) k = some v := by
  intro m
  induction m with
  | nil =>
    intro _
    rw [List.nil_append, hmFind_cons_self]
  | cons p r ih =>
    intro h
    rw [List.any_cons] at h
    have h1 : ¬ p.1 = k := by
      intro hk
      rw [hk] at h
      simp at h
    rw [List.cons_append, show p = (p.1, p.2) from rfl, hmFind_cons_other h1]
    apply ih
    simpa using Bool.or_eq_false_iff.mp h |>.2

theorem hmFind_hmInsert (m : List (List Char × Json)) (k : List Char) (v : Json) :
    hmFind (hmInsert m k v) k = some v := by
  unfold hmInsert
  split
  · exact hmFind_map_replace m (by assumption)
  · rename_i hno
    exact hmFind_append_new m (Bool.not_eq_true _ ▸ Bool.of_not_eq_true hno)

/-! ## Category-name lemmas -/

theorem metaType_eq_eof {m : Meta} (h : metaType m = metaType Meta.eof) : m = Meta.eof := by
  cases m <;> first
    | rfl
    | (simp only [metaType] at h; exact absurd h (by decide))

theorem metaType_eq_string {m : Meta} (h : metaType m = metaType (Meta.stringLiteral [])) :
    ∃ s, m = Meta.stringLiteral s := by
  cases m <;> first
    | exact ⟨_, rfl⟩
    | (simp only [metaType] at h; exact absurd h (by decide))

theorem metaType_eq_isTerminal {a b : Meta} (h : metaType a = metaType b) :
    isTerminal a = isTerminal b := by
  cases a <;> cases b <;> first
    | rfl
    | (simp only [metaType] at h; exact absurd h (by decide))

/-! ## Lemmas about the parser primitives -/

theorem pconsume_cons (e : Meta) (t0 : Token) (r0 : List Token) :
    pconsume e (t0 :: r0) =
      if metaType t0.lexeme = metaType e then .ok (t0, r0)
      else
        match t0.lexeme with
        | .error msg => .err { msg := msg, line := t0.line, column := t0.column }
        | _ => .err { msg := "Expect " ++ metaType e ++ ", got " ++ metaType t0.lexeme,
                      line := t0.line, column := t0.column } := rfl

theorem pconsume_ok {e : Meta} {ts : List Token} {t : Token} {rest : List Token}
    (h : pconsume e ts = .ok (t, rest)) :
    ts = t :: rest ∧ metaType t.lexeme = metaType e := by
  cases ts with
  | nil => exact PR.noConfusion h
  | cons t0 r0 =>
    rw [pconsume_cons] at h
    by_cases hm : metaType t0.lexeme = metaType e
    · rw [if_pos hm] at h
      cases h
      exact ⟨rfl, hm⟩
    · rw [if_neg hm] at h
      cases ht0 : t0.lexeme <;> (rw [ht0] at h; exact PR.noConfusion h)

theorem pconsume_ne_panic {e : Meta} {ts : List Token} (h : ts ≠ []) :
    pconsume e ts ≠ .panic := by
  cases ts with
  | nil => exact absurd rfl h
  | cons t0 r0 =>
    intro hx
    rw [pconsume_cons] at hx
    by_cases hm : metaType t0.lexeme = metaType e
    · rw [if_pos hm] at hx
      exact PR.noConfusion hx
    · rw [if_neg hm] at hx
      cases ht0 : t0.lexeme <;> (rw [ht0] at hx; exact PR.noConfusion hx)

theorem pprimary_cons (t0 : Token) (r0 : List Token) :
    pprimary (t0 :: r0) =
      match t0.lexeme with
      | .nullLiteral => .ok (.null, r0)
      | .boolLiteral b => .ok (.bool b, r0)
      | .stringLiteral s => .ok (.string s, r0)
      | .numberLiteral n => .ok (.number n, r0)
      | .error msg => .err { msg := msg, line := t0.line, column := t0.column }
      | m => .err { msg := "Expect Primary, got " ++ metaType m,
                    line := t0.line, column := t0.column } := rfl

theorem pprimary_ne_panic {ts : List Token} (h : ts ≠ []) : pprimary ts ≠ .panic := by
  cases ts with
  | nil => exact absurd rfl h
  | cons t0 r0 =>
    intro hx
    rw [pprimary_cons] at hx
    cases ht0 : t0.lexeme <;> (rw [ht0] at hx; exact PR.noConfusion hx)

theorem pprimary_ok {ts : List Token} {v : Json} {rest : List Token}
    (h : pprimary ts = .ok (v, rest)) :
    ∃ t, ts = t :: rest ∧ isTerminal t.lexeme = false := by
  cases ts with
  | nil => exact PR.noConfusion h
  | cons t0 r0 =>
    rw [pprimary_cons] at h
    cases ht0 : t0.lexeme <;> rw [ht0] at h <;>
      first
      | exact PR.noConfusion h
      | (cases h; exact ⟨t0, rfl, by rw [ht0]; rfl⟩)

/-! ## The terminal-token invariant of the parser -/

theorem hasTerm_ne_nil {ts : List Token} (h : hasTerm ts) : ts ≠ [] := by
  rcases h with ⟨t, ht, _⟩
  intro he
  rw [he] at ht
  cases ht

theorem hasTerm_cons {t : Token} {rest : List Token} (h : hasTerm (t :: rest))
    (hn : isTerminal t.lexeme = false) : hasTerm rest := by
  rcases h with ⟨u, hu, hut⟩
  rcases List.mem_cons.mp hu with he | hm
  · rw [he, hn] at hut
    cases hut
  · exact ⟨u, hm, hut⟩

theorem pconsume_hasTerm {e : Meta} {ts : List Token} {t : Token} {rest : List Token}
    (hht : hasTerm ts) (h : pconsume e ts = .ok (t, rest)) (he : isTerminal e = false) :
    hasTerm rest := by
  rcases pconsume_ok h with ⟨hcons, hmt⟩
  rw [hcons] at hht
  exact hasTerm_cons hht ((metaType_eq_isTerminal hmt).trans he)

/-- The invariant a parser-production result maintains: no panic, and a
successful result leaves a stream that still holds its terminal token. -/
def PInv {α : Type} (p : PR (α × List Token)) : Prop :=
  p ≠ .panic ∧ ∀ a rest, p = .ok (a, rest) → hasTerm rest

theorem PInv_err {α : Type} (e : PError) : PInv (α := α) (.err e) := by
  constructor
  · intro h; cases h
  · intro a rest h; cases h

theorem PInv_nofuel {α : Type} : PInv (α := α) .nofuel := by
  constructor
  · intro h; cases h
  · intro a rest h; cases h

theorem PInv_ok {α : Type} {a : α} {rest : List Token} (h : hasTerm rest) :
    PInv (.ok (a, rest)) := by
  constructor
  · intro hx; cases hx
  · intro a2 rest2 hx
    cases hx
    exact h

theorem PInv_bind {α β : Type} {p : PR (α × List Token)}
    {k : α × List Token → PR (β × List Token)} (hp : PInv p)
    (hk : ∀ a rest, p = .ok (a, rest) → hasTerm rest → PInv (k (a, rest))) :
    PInv (p.andThen k) := by
  cases p with
  | ok x =>
    obtain ⟨a, rest⟩ := x
    exact hk a rest rfl (hp.2 a rest rfl)
  | err e => exact PInv_err e
  | panic => exact absurd rfl hp.1
  | nofuel => exact PInv_nofuel

theorem pconsume_PInv (e : Meta) {ts : List Token} (hht : hasTerm ts)
    (he : isTerminal e = false) : PInv (pconsume e ts) := by
  constructor
  · exact pconsume_ne_panic (hasTerm_ne_nil hht)
  · intro t rest h
    exact pconsume_hasTerm hht h he

theorem pprimary_PInv {ts : List Token} (hht : hasTerm ts) : PInv (pprimary ts) := by
  constructor
  · exact pprimary_ne_panic (hasTerm_ne_nil hht)
  · intro v rest h
    rcases pprimary_ok h with ⟨t, hcons, hnt⟩
    rw [hcons] at hht
    exact hasTerm_cons hht hnt

theorem parser_inv : ∀ f : Nat,
    (∀ ts, hasTerm ts → PInv (pjson f ts)) ∧
    (∀ ts, hasTerm ts → PInv (pobject f ts)) ∧
    (∀ m ts, hasTerm ts → PInv (pobjLoop f m ts)) ∧
    (∀ ts, hasTerm ts → PInv (pread_kv f ts)) ∧
    (∀ ts, hasTerm ts → PInv (parray f ts)) ∧
    (∀ acc ts, hasTerm ts → PInv (parrLoop f acc ts)) := by
  intro f
  induction f with
  | zero =>
    exact ⟨fun ts _ => PInv_nofuel, fun ts _ => PInv_nofuel, fun m ts _ => PInv_nofuel,
      fun ts _ => PInv_nofuel, fun ts _ => PInv_nofuel, fun acc ts _ => PInv_nofuel⟩
  | succ f ih =>
    obtain ⟨ihj, iho, ihol, ihkv, iha, ihal⟩ := ih
    refine ⟨?_, ?_, ?_, ?_, ?_, ?_⟩
    · -- pjson
      intro ts hts
      cases ts with
      | nil => exact absurd rfl (hasTerm_ne_nil hts)
      | cons t r =>
        show PInv (match t.lexeme with
          | Meta.leftBrace => pobject f (t :: r)
          | Meta.leftSquare => parray f (t :: r)
          | _ => pprimary (t :: r))
        cases hl : t.lexeme <;>
          first
          | exact iho _ hts
          | exact iha _ hts
          | exact pprimary_PInv hts
    · -- pobject
      intro ts hts
      apply PInv_bind (pconsume_PInv Meta.leftBrace hts rfl)
      intro a rest hok hrest
      cases rest with
      | nil => exact absurd rfl (hasTerm_ne_nil hrest)
      | cons t r =>
        show PInv (if t.lexeme = Meta.rightBrace then
            (pconsume Meta.rightBrace (t :: r)).andThen fun y => .ok (.object [], y.2)
          else
            (pread_kv f (t :: r)).andThen fun y => pobjLoop f (hmInsert [] y.1.1 y.1.2) y.2)
        by_cases hb : t.lexeme = Meta.rightBrace
        · rw [if_pos hb]
          apply PInv_bind (pconsume_PInv Meta.rightBrace hrest rfl)
          intro a2 rest2 _ hr2
          exact PInv_ok hr2
        · rw [if_neg hb]
          apply PInv_bind (ihkv _ hrest)
          intro kv rest2 _ hr2
          exact ihol _ _ hr2
    · -- pobjLoop
      intro m ts hts
      cases ts with
      | nil => exact absurd rfl (hasTerm_ne_nil hts)
      | cons t r =>
        show PInv (if t.lexeme = Meta.comma then
            (pread_kv f r).andThen fun y => pobjLoop f (hmInsert m y.1.1 y.1.2) y.2
          else
            (pconsume Meta.rightBrace (t :: r)).andThen fun y => .ok (.object m, y.2))
        by_cases hc : t.lexeme = Meta.comma
        · rw [if_pos hc]
          have hr : hasTerm r := hasTerm_cons hts (by rw [hc]; rfl)
          apply PInv_bind (ihkv _ hr)
          intro kv rest2 _ hr2
          exact ihol _ _ hr2
        · rw [if_neg hc]
          apply PInv_bind (pconsume_PInv Meta.rightBrace hts rfl)
          intro a2 rest2 _ hr2
          exact PInv_ok hr2
    · -- pread_kv
      intro ts hts
      apply PInv_bind (pconsume_PInv (Meta.stringLiteral []) hts rfl)
      intro tk rest hok hrest
      rcases metaType_eq_string (pconsume_ok hok).2 with ⟨s, hs⟩
      show PInv (match tk.lexeme with
        | Meta.stringLiteral key =>
          (pconsume Meta.colon rest).andThen fun y =>
            (pjson f y.2).andThen fun z => .ok ((key, z.1), z.2)
        | _ => .panic)
      rw [hs]
      show PInv ((pconsume Meta.colon rest).andThen fun y =>
        (pjson f y.2).andThen fun z => .ok ((s, z.1), z.2))
      apply PInv_bind (pconsume_PInv Meta.colon hrest rfl)
      intro a2 rest2 _ hr2
      show PInv ((pjson f rest2).andThen fun z => .ok ((s, z.1), z.2))
      apply PInv_bind (ihj _ hr2)
      intro v rest3 _ hr3
      exact PInv_ok hr3
    · -- parray
      intro ts hts
      apply PInv_bind (pconsume_PInv Meta.leftSquare hts rfl)
      intro a rest hok hrest
      cases rest with
      | nil => exact absurd rfl (hasTerm_ne_nil hrest)
      | cons t r =>
        show PInv (if t.lexeme = Meta.rightSquare then
            (pconsume Meta.rightSquare (t :: r)).andThen fun y => .ok (.array [], y.2)
          else
            (pjson f (t :: r)).andThen fun y => parrLoop f [y.1] y.2)
        by_cases hb : t.lexeme = Meta.rightSquare
        · rw [if_pos hb]
          apply PInv_bind (pconsume_PInv Meta.rightSquare hrest rfl)
          intro a2 rest2 _ hr2
          exact PInv_ok hr2
        · rw [if_neg hb]
          apply PInv_bind (ihj _ hrest)
          intro v rest2 _ hr2
          exact ihal _ _ hr2
    · -- parrLoop
      intro acc ts hts
      cases ts with
      | nil => exact absurd rfl (hasTerm_ne_nil hts)
      | cons t r =>
        show PInv (if t.lexeme = Meta.comma then
            (pjson f r).andThen fun y => parrLoop f (acc ++ [y.1]) y.2
          else
            (pconsume Meta.rightSquare (t :: r)).andThen fun y => .ok (.array acc, y.2))
        by_cases hc : t.lexeme = Meta.comma
        · rw [if_pos hc]
          have hr : hasTerm r := hasTerm_cons hts (by rw [hc]; rfl)
          apply PInv_bind (ihj _ hr)
          intro v rest2 _ hr2
          exact ihal _ _ hr2
        · rw [if_neg hc]
          apply PInv_bind (pconsume_PInv Meta.rightSquare hts rfl)
          intro a2 rest2 _ hr2
          exact PInv_ok hr2

/-! ## The lexer stream always ends in a terminal token -/

theorem lexAll_hasTerm : ∀ (f : Nat) (lx : Lexer) (ts : List Token),
    lx.done = false → lexAll f lx = some ts → hasTerm ts := by
  intro f
  induction f with
  | zero =>
    intro lx ts _ h
    exact Option.noConfusion h
  | succ f ih =>
    intro lx ts hd h
    cases hnt : next_token lx with
    | none =>
      rw [show lexAll (Nat.succ f) lx =
        (match next_token lx with
         | none => none
         | some (_, none) => some []
         | some (lx1, some t) => (lexAll f lx1).map (fun l => t :: l)) from rfl, hnt] at h
      exact Option.noConfusion h
    | some p =>
      obtain ⟨lx1, o⟩ := p
      rcases next_token_spec hd hnt with ⟨t, ho, hterm_t, hnon_t⟩
      subst ho
      rw [show lexAll (Nat.succ f) lx =
        (match next_token lx with
         | none => none
         | some (_, none) => some []
         | some (lx1, some t) => (lexAll f lx1).map (fun l => t :: l)) from rfl, hnt] at h
      have h2 : (lexAll f lx1).map (fun l => t :: l) = some ts := h
      rcases Option.map_eq_some'.mp h2 with ⟨ts1, hts1, hcons⟩
      subst hcons
      by_cases hterm : isTerminal t.lexeme = true
      · exact ⟨t, List.mem_cons_self t ts1, hterm⟩
      · have hfalse : isTerminal t.lexeme = false := by
          simpa using hterm
        rcases ih lx1 ts1 (hnon_t hfalse) hts1 with ⟨u, hu, hut⟩
        exact ⟨u, List.mem_cons_of_mem t hu, hut⟩

/-! ## More sequencing lemmas -/

theorem andThen_eq_ok {α β : Type} {p : PR α} {k : α → PR β} {b : β}
    (h : p.andThen k = .ok b) : ∃ a, p = .ok a ∧ k a = .ok b := by
  cases p with
  | ok a => exact ⟨a, rfl, h⟩
  | err e => exact PR.noConfusion h
  | panic => exact PR.noConfusion h
  | nofuel => exact PR.noConfusion h

theorem andThen_eq_panic {α β : Type} {p : PR α} {k : α → PR β}
    (h : p.andThen k = .panic) : p = .panic ∨ ∃ a, p = .ok a ∧ k a = .panic := by
  cases p with
  | ok a => exact Or.inr ⟨a, rfl, h⟩
  | err e => exact PR.noConfusion h
  | panic => exact Or.inl rfl
  | nofuel => exact PR.noConfusion h

/-! ## Claim theorems -/

/-- C4 (code_bug): `skip_whitespaces` counts whitespace *characters* but
slices the remaining input at that count as a *byte* index.  On an input
whose leading whitespace is the two-byte NO-BREAK SPACE U+00A0 followed by
`1`, the slice index 1 is not a character boundary and `next_token`
panics (modelled as `none`) instead of skipping the whitespace and
tokenizing `1`. -/
theorem whitespace_byte_slice_panics :
    next_token (initLexer [Char.ofNat 0xA0, '1']) = none := rfl

/-- C2: once the lexer is done, `next_token` yields no further token and
leaves the state unchanged; and whenever a call produces an end-of-input
or error token, the resulting state is done, so the call after it yields
no token — the terminal token is returned exactly once. -/
theorem lexer_done_exhausts :
    (∀ lx : Lexer, lx.done = true → next_token lx = some (lx, none)) ∧
    (∀ (lx lx' : Lexer) (t : Token), next_token lx = some (lx', some t) →
      isTerminal t.lexeme = true → lx'.done = true ∧ next_token lx' = some (lx', none)) := by
  constructor
  · exact fun lx h => next_token_done_eq h
  · intro lx lx' t hnt hterm
    by_cases hd : lx.done = true
    · rw [next_token_done_eq hd] at hnt
      have h2 : (none : Option Token) = some t := congrArg Prod.snd (Option.some_inj.mp hnt)
      exact Option.noConfusion h2
    · have hd' : lx.done = false := Bool.not_eq_true _ ▸ Bool.of_not_eq_true hd
      rcases next_token_spec hd' hnt with ⟨t2, ho, hT, _⟩
      have ht2 : t2 = t := (Option.some_inj.mp ho).symm
      rw [ht2] at hT
      have hdone : lx'.done = true := hT hterm
      exact ⟨hdone, next_token_done_eq hdone⟩

/-- Witness for C2 at concrete states: a done lexer yields nothing, and
lexing the empty input produces the end-of-input token after which the
stream is exhausted. -/
theorem lexer_done_exhausts_witness :
    (Lexer.mk [] 1 1 true).done = true ∧
    next_token (Lexer.mk [] 1 1 true) = some (Lexer.mk [] 1 1 true, none) ∧
    next_token (initLexer []) =
      some (Lexer.mk [] 1 1 true, some (Token.mk Meta.eof [] 1 1)) ∧
    isTerminal Meta.eof = true ∧
    (Lexer.mk [] 1 1 true).done = true ∧
    next_token (Lexer.mk [] 1 1 true) = some (Lexer.mk [] 1 1 true, none) := by
  refine ⟨rfl, lexer_done_exhausts.1 _ rfl, rfl, rfl, ?_, ?_⟩
  · exact (lexer_done_exhausts.2 (initLexer []) _ _ rfl rfl).1
  · exact (lexer_done_exhausts.2 (initLexer []) _ _ rfl rfl).2

/-- C10: for every source text whose tokenization completes, running the
parser on the produced token stream never reaches the
`panic!("Impossible")` branches of `peek_unchecked`/`advance_unchecked`
(nor the read-kv destructure): the parser never requests a token after
the lexer's terminal token was consumed. -/
theorem parse_no_impossible_panic :
    ∀ (src : List Char) (f1 f2 : Nat) (ts : List Token),
      lexAll f1 (initLexer src) = some ts → pparse f2 ts ≠ PR.panic := by
  intro src f1 f2 ts hlex hp
  have hterm : hasTerm ts := lexAll_hasTerm f1 (initLexer src) ts rfl hlex
  have hinv := (parser_inv f2).1 ts hterm
  rcases andThen_eq_panic hp with hj | ⟨x, hx, hk⟩
  · exact hinv.1 hj
  · obtain ⟨v, ts1⟩ := x
    have hts1 : hasTerm ts1 := hinv.2 v ts1 hx
    rcases andThen_eq_panic hk with hc | ⟨y, _, hk2⟩
    · exact pconsume_ne_panic (hasTerm_ne_nil hts1) hc
    · exact PR.noConfusion hk2

/-- Witness for C10: the tokenization of `true` completes, and parsing its
token stream does not panic. -/
theorem parse_no_impossible_panic_witness :
    lexAll 10 (initLexer ['t', 'r', 'u', 'e']) =
      some [Token.mk (Meta.boolLiteral true) ['t', 'r', 'u', 'e'] 1 1,
            Token.mk Meta.eof [] 1 5] ∧
    pparse 10 [Token.mk (Meta.boolLiteral true) ['t', 'r', 'u', 'e'] 1 1,
               Token.mk Meta.eof [] 1 5] ≠ PR.panic := by
  refine ⟨rfl, ?_⟩
  exact parse_no_impossible_panic ['t', 'r', 'u', 'e'] 10 10 _ rfl

/-- C9: object insertion overwrites the previous binding of a repeated key
(last write wins, no duplicate-key error), and concretely the object text
`{"a":1,"a":2}` lexes and parses to an object in which `a` is bound to the
number literal `2`. -/
theorem object_duplicate_last_wins :
    (∀ (m : List (List Char × Json)) (k : List Char) (v : Json),
       hmFind (hmInsert m k v) k = some v) ∧
    lexAll 30 (initLexer ([lbrace, '"', 'a', '"', ':', '1', ',',
                           '"', 'a', '"', ':', '2', rbrace])) =
      some [Token.mk Meta.leftBrace [lbrace] 1 1,
            Token.mk (Meta.stringLiteral ['a']) ['"', 'a', '"'] 1 2,
            Token.mk Meta.colon [':'] 1 5,
            Token.mk (Meta.numberLiteral ['1']) ['1'] 1 6,
            Token.mk Meta.comma [','] 1 7,
            Token.mk (Meta.stringLiteral ['a']) ['"', 'a', '"'] 1 8,
            Token.mk Meta.colon [':'] 1 11,
            Token.mk (Meta.numberLiteral ['2']) ['2'] 1 12,
            Token.mk Meta.rightBrace [rbrace] 1 13,
            Token.mk Meta.eof [] 1 14] ∧
    pparse 30 [Token.mk Meta.leftBrace [lbrace] 1 1,
               Token.mk (Meta.stringLiteral ['a']) ['"', 'a', '"'] 1 2,
               Token.mk Meta.colon [':'] 1 5,
               Token.mk (Meta.numberLiteral ['1']) ['1'] 1 6,
               Token.mk Meta.comma [','] 1 7,
               Token.mk (Meta.stringLiteral ['a']) ['"', 'a', '"'] 1 8,
               Token.mk Meta.colon [':'] 1 11,
               Token.mk (Meta.numberLiteral ['2']) ['2'] 1 12,
               Token.mk Meta.rightBrace [rbrace] 1 13,
               Token.mk Meta.eof [] 1 14] =
      .ok (Json.object [(['a'], Json.number ['2'])]) ∧
    hmFind [(['a'], Json.number ['2'])] ['a'] = some (Json.number ['2']) :=
  ⟨hmFind_hmInsert, rfl, rfl, rfl⟩

/-- C7: when `consume` meets a token of a different category, it surfaces a
lexical-error token's message verbatim at that token's own position, and
otherwise builds the structural mismatch message naming the expected and
the actual category, also positioned at the mismatched token; in both
cases it returns an error, consuming nothing. -/
theorem consume_mismatch_spec : ∀ (e : Meta) (t : Token) (rest : List Token),
    metaType t.lexeme ≠ metaType e →
    (∀ msg, t.lexeme = Meta.error msg →
       pconsume e (t :: rest) = .err (PError.mk msg t.line t.column)) ∧
    ((∀ msg, t.lexeme ≠ Meta.error msg) →
       pconsume e (t :: rest) =
         .err (PError.mk ("Expect " ++ metaType e ++ ", got " ++ metaType t.lexeme)
           t.line t.column)) := by
  intro e t rest hne
  constructor
  · intro msg hmsg
    rw [pconsume_cons, if_neg hne, hmsg]
  · intro hnm
    rw [pconsume_cons, if_neg hne]
    cases hl : t.lexeme <;> first | exact absurd hl (hnm _) | rfl

/-- Witness for C7 at concrete tokens: a `bool` token where `EOF` was
expected produces the structural message, and a lexical-error token
surfaces its own message verbatim. -/
theorem consume_mismatch_spec_witness :
    metaType (Meta.boolLiteral true) ≠ metaType Meta.eof ∧
    pconsume Meta.eof [Token.mk (Meta.boolLiteral true) ['t', 'r', 'u', 'e'] 1 6] =
      .err (PError.mk "Expect EOF, got bool" 1 6) ∧
    metaType (Meta.error "Unexpected character") ≠ metaType Meta.eof ∧
    pconsume Meta.eof [Token.mk (Meta.error "Unexpected character") ['@'] 1 6] =
      .err (PError.mk "Unexpected character" 1 6) := by
  refine ⟨by decide, ?_, by decide, ?_⟩
  · exact (consume_mismatch_spec Meta.eof _ [] (by decide)).2
      (fun msg h => Meta.noConfusion h)
  · exact (consume_mismatch_spec Meta.eof _ [] (by decide)).1 "Unexpected character" rfl

/-- C1 counterexample: after the complete value `true`, the next token of
`true @` is a lexical-error token; `parse` then returns the *lexical*
error "Unexpected character" verbatim, not a structural
"Expect EOF, got <category>" error, so "parse returns a structural error
whenever any token follows the value" fails as stated. -/
theorem parse_trailing_error_cx :
    lexAll 10 (initLexer ['t', 'r', 'u', 'e', ' ', '@']) =
      some [Token.mk (Meta.boolLiteral true) ['t', 'r', 'u', 'e'] 1 1,
            Token.mk (Meta.error "Unexpected character") ['@'] 1 6] ∧
    pparse 10 [Token.mk (Meta.boolLiteral true) ['t', 'r', 'u', 'e'] 1 1,
               Token.mk (Meta.error "Unexpected character") ['@'] 1 6] =
      .err (PError.mk "Unexpected character" 1 6) ∧
    "Unexpected character" ≠ "Expect EOF, got Error" :=
  ⟨rfl, rfl, by decide⟩

/-- C1 (amended): `parse` returns a value exactly when the `Json`
production succeeds and the next token is the end-of-input token.  If a
non-error token other than end-of-input follows the value, `parse`
returns the structural error "Expect EOF, got <category>" at that token;
if a lexical-error token follows, `parse` surfaces that lexical error
verbatim instead.  Concretely, `true true` is a structural error, not two
parses. -/
theorem parse_eof_contract :
    (∀ (f : Nat) (ts : List Token),
       (∃ v, pparse f ts = .ok v) ↔
       (∃ v t rest, pjson f ts = .ok (v, t :: rest) ∧ t.lexeme = Meta.eof)) ∧
    (∀ (f : Nat) (ts : List Token) (v : Json) (t : Token) (rest : List Token),
       pjson f ts = .ok (v, t :: rest) → (∀ m, t.lexeme ≠ Meta.error m) →
       t.lexeme ≠ Meta.eof →
       pparse f ts =
         .err (PError.mk ("Expect EOF, got " ++ metaType t.lexeme) t.line t.column)) ∧
    (∀ (f : Nat) (ts : List Token) (v : Json) (t : Token) (rest : List Token) (m : String),
       pjson f ts = .ok (v, t :: rest) → t.lexeme = Meta.error m →
       pparse f ts = .err (PError.mk m t.line t.column)) ∧
    (lexAll 10 (initLexer ['t', 'r', 'u', 'e', ' ', 't', 'r', 'u', 'e']) =
       some [Token.mk (Meta.boolLiteral true) ['t', 'r', 'u', 'e'] 1 1,
             Token.mk (Meta.boolLiteral true) ['t', 'r', 'u', 'e'] 1 6,
             Token.mk Meta.eof [] 1 10] ∧
     pparse 10 [Token.mk (Meta.boolLiteral true) ['t', 'r', 'u', 'e'] 1 1,
                Token.mk (Meta.boolLiteral true) ['t', 'r', 'u', 'e'] 1 6,
                Token.mk Meta.eof [] 1 10] =
       .err (PError.mk "Expect EOF, got bool" 1 6)) := by
  refine ⟨?_, ?_, ?_, rfl, rfl⟩
  · intro f ts
    constructor
    · rintro ⟨v, hv⟩
      rcases andThen_eq_ok hv with ⟨x, hx, hk⟩
      obtain ⟨v0, ts1⟩ := x
      rcases andThen_eq_ok hk with ⟨y, hy, _⟩
      obtain ⟨tk, rest⟩ := y
      rcases pconsume_ok hy with ⟨hcons, hmt⟩
      refine ⟨v0, tk, rest, ?_, metaType_eq_eof hmt⟩
      rw [← hcons]
      exact hx
    · rintro ⟨v, t, rest, hj, hteof⟩
      refine ⟨v, ?_⟩
      unfold pparse
      rw [hj]
      show ((pconsume Meta.eof (t :: rest)).andThen fun _ => PR.ok v) = PR.ok v
      rw [pconsume_cons, hteof, if_pos rfl]
      rfl
  · intro f ts v t rest hj herr hne
    unfold pparse
    rw [hj]
    show ((pconsume Meta.eof (t :: rest)).andThen fun _ => PR.ok v) = _
    rw [pconsume_cons, if_neg (fun h => hne (metaType_eq_eof h))]
    cases hl : t.lexeme <;> first | exact absurd hl (herr _) | rfl
  · intro f ts v t rest m hj hl
    unfold pparse
    rw [hj]
    show ((pconsume Meta.eof (t :: rest)).andThen fun _ => PR.ok v) = _
    rw [pconsume_cons, hl, if_neg (by simp only [metaType]; decide)]
    rfl

/-- Witness for C1 at a concrete stream: on the tokens of `true true`, the
`Json` production succeeds leaving a `bool` token, and the theorem's
structural-error case yields "Expect EOF, got bool" at line 1, column 6. -/
theorem parse_eof_contract_witness :
    pjson 10 [Token.mk (Meta.boolLiteral true) ['t', 'r', 'u', 'e'] 1 1,
              Token.mk (Meta.boolLiteral true) ['t', 'r', 'u', 'e'] 1 6,
              Token.mk Meta.eof [] 1 10] =
      .ok (Json.bool true,
           [Token.mk (Meta.boolLiteral true) ['t', 'r', 'u', 'e'] 1 6,
            Token.mk Meta.eof [] 1 10]) ∧
    pparse 10 [Token.mk (Meta.boolLiteral true) ['t', 'r', 'u', 'e'] 1 1,
               Token.mk (Meta.boolLiteral true) ['t', 'r', 'u', 'e'] 1 6,
               Token.mk Meta.eof [] 1 10] =
      .err (PError.mk ("Expect EOF, got " ++
        metaType (Token.mk (Meta.boolLiteral true) ['t', 'r', 'u', 'e'] 1 6).lexeme) 1 6) := by
  refine ⟨rfl, ?_⟩
  exact parse_eof_contract.2.1 10 _ (Json.bool true)
    (Token.mk (Meta.boolLiteral true) ['t', 'r', 'u', 'e'] 1 6)
    [Token.mk Meta.eof [] 1 10] rfl
    (fun m h => Meta.noConfusion h) (fun h => Meta.noConfusion h)

/-! ## The string scan -/

theorem stringLoop_nil (lx : Lexer) (n : Nat) (skip : Bool) :
    stringLoop lx [] n skip =
      mk_error lx "Undetermined string literal" (lx.start.take n) := rfl

theorem stringLoop_cons (lx : Lexer) (c : Char) (cs : List Char) (n : Nat) (skip : Bool) :
    stringLoop lx (c :: cs) n skip =
      (if c = '\n' then mk_error lx "Unexpected newline" (lx.start.take n)
       else if skip then stringLoop lx cs (n + 1) false
       else if c = '\\' then stringLoop lx cs (n + 1) true
       else if c = '"' then
         mk_token lx (Meta.stringLiteral (((lx.start.take (n + 1)).drop 1).dropLast))
           (lx.start.take (n + 1))
       else stringLoop lx cs (n + 1) false) := rfl

theorem stringLoop_literal_raw (lx : Lexer) :
    ∀ (rest : List Char) (n : Nat) (skip : Bool) (t : Token) (lx2 : Lexer) (s : List Char),
      stringLoop lx rest n skip = (t, lx2) → t.lexeme = Meta.stringLiteral s →
      s = (t.literal.drop 1).dropLast ∧ ∃ k, t.literal = lx.start.take k := by
  intro rest
  induction rest with
  | nil =>
    intro n skip t lx2 s h hs
    have ht : t = (mk_error lx "Undetermined string literal" (lx.start.take n)).1 :=
      (congrArg Prod.fst h).symm
    rw [ht] at hs
    exact Meta.noConfusion hs
  | cons c cs ih =>
    intro n skip t lx2 s h hs
    rw [stringLoop_cons] at h
    by_cases hnl : c = '\n'
    · rw [if_pos hnl] at h
      have ht : t = (mk_error lx "Unexpected newline" (lx.start.take n)).1 :=
        (congrArg Prod.fst h).symm
      rw [ht] at hs
      exact Meta.noConfusion hs
    · rw [if_neg hnl] at h
      by_cases hsk : skip = true
      · rw [if_pos hsk] at h
        exact ih (n + 1) false t lx2 s h hs
      · rw [if_neg hsk] at h
        by_cases hbs : c = '\\'
        · rw [if_pos hbs] at h
          exact ih (n + 1) true t lx2 s h hs
        · rw [if_neg hbs] at h
          by_cases hq : c = '"'
          · rw [if_pos hq] at h
            have ht : t = (mk_token lx
                (Meta.stringLiteral (((lx.start.take (n + 1)).drop 1).dropLast))
                (lx.start.take (n + 1))).1 := (congrArg Prod.fst h).symm
            rw [ht] at hs
            rw [mk_token_lexeme] at hs
            injection hs with hsv
            rw [ht]
            exact ⟨hsv.symm, n + 1, rfl⟩
          · rw [if_neg hq] at h
            exact ih (n + 1) false t lx2 s h hs

/-- C3 counterexample: inside a string literal a backslash followed by a
newline is *not* consumed as an escaped character — the newline check runs
before the escape flag is honoured, so `"\<newline>"` produces the lexical
error "Unexpected newline". -/
theorem string_escaped_newline_cx :
    next_token (initLexer ['"', '\\', '\n', '"']) =
      some (Lexer.mk ['\n', '"'] 1 3 true,
        some (Token.mk (Meta.error "Unexpected newline") ['"', '\\'] 1 1)) := rfl

/-- C3 (amended): in the string scan a backslash escapes any following
character *except* a newline — the escaped character is consumed without
interpretation; a newline, escaped or not, yields the lexical error
"Unexpected newline"; and a produced string-literal value is the raw
consumed slice with the two quotes stripped, escapes intact. -/
theorem string_escape_amended :
    (∀ (lx : Lexer) (rest : List Char) (n : Nat) (c : Char), c ≠ '\n' →
       stringLoop lx ('\\' :: c :: rest) n false = stringLoop lx rest (n + 2) false) ∧
    (∀ (lx : Lexer) (rest : List Char) (n : Nat),
       stringLoop lx ('\\' :: '\n' :: rest) n false =
         mk_error lx "Unexpected newline" (lx.start.take (n + 1))) ∧
    (∀ (lx : Lexer) (rest : List Char) (n : Nat) (skip : Bool),
       stringLoop lx ('\n' :: rest) n skip =
         mk_error lx "Unexpected newline" (lx.start.take n)) ∧
    (∀ (lx : Lexer) (t : Token) (lx2 : Lexer) (s : List Char),
       stringScan lx = (t, lx2) → t.lexeme = Meta.stringLiteral s →
       s = (t.literal.drop 1).dropLast ∧ ∃ k, t.literal = lx.start.take k) := by
  refine ⟨?_, ?_, ?_, ?_⟩
  · intro lx rest n c hc
    rw [stringLoop_cons, if_neg (by decide), if_neg (by decide), if_pos rfl,
      stringLoop_cons, if_neg hc, if_pos rfl]
  · intro lx rest n
    rw [stringLoop_cons, if_neg (by decide), if_neg (by decide), if_pos rfl,
      stringLoop_cons, if_pos rfl]
  · intro lx rest n skip
    rw [stringLoop_cons, if_pos rfl]
  · intro lx t lx2 s h hs
    exact stringLoop_literal_raw lx (lx.start.drop 1) 1 false t lx2 s h hs

/-- Witness for C3 (amended) at concrete inputs: `\x` is consumed as an
escaped pair, `\<newline>` errors, a raw newline errors, and scanning
`"a"` stores the raw slice between the quotes. -/
theorem string_escape_amended_witness :
    ('x' : Char) ≠ '\n' ∧
    stringLoop (initLexer ['"', '\\', 'x', '"']) ['\\', 'x', '"'] 1 false =
      stringLoop (initLexer ['"', '\\', 'x', '"']) ['"'] 3 false ∧
    stringLoop (initLexer ['"', '\\', '\n']) ['\\', '\n'] 1 false =
      mk_error (initLexer ['"', '\\', '\n']) "Unexpected newline"
        ((initLexer ['"', '\\', '\n']).start.take 2) ∧
    stringScan (initLexer ['"', 'a', '"']) =
      (Token.mk (Meta.stringLiteral ['a']) ['"', 'a', '"'] 1 1, Lexer.mk [] 1 4 false) ∧
    (['a'] : List Char) = (((['"', 'a', '"'] : List Char)).drop 1).dropLast ∧
    (∃ k, (['"', 'a', '"'] : List Char) = (initLexer ['"', 'a', '"']).start.take k) := by
  refine ⟨by decide, ?_, ?_, rfl, ?_, ?_⟩
  · exact string_escape_amended.1 _ _ _ _ (by decide)
  · exact string_escape_amended.2.1 _ _ _
  · exact (string_escape_amended.2.2.2 (initLexer ['"', 'a', '"'])
      (Token.mk (Meta.stringLiteral ['a']) ['"', 'a', '"'] 1 1)
      (Lexer.mk [] 1 4 false) ['a'] rfl rfl).1
  · exact (string_escape_amended.2.2.2 (initLexer ['"', 'a', '"'])
      (Token.mk (Meta.stringLiteral ['a']) ['"', 'a', '"'] 1 1)
      (Lexer.mk [] 1 4 false) ['a'] rfl rfl).2

/-! ## Dispatch and unterminated strings -/

theorem skip_whitespaces_noop {lx : Lexer} {c : Char} (hd : lx.done = false)
    (hh : lx.start.head? = some c) (hw : rustIsWhitespace c = false) :
    skip_whitespaces lx = some lx := by
  have h1 : (lx.start.takeWhile rustIsWhitespace).length = 0 := by
    cases hs : lx.start with
    | nil => rfl
    | cons c0 t =>
      have hc0 : c0 = c := by
        rw [hs] at hh
        exact Option.some_inj.mp hh
      subst hc0
      rw [List.takeWhile_cons_of_neg (by simp [hw])]
      rfl
  simp [skip_whitespaces, hd, h1]

theorem unterminatedScan_cons (c : Char) (cs : List Char) (skip : Bool) :
    unterminatedScan (c :: cs) skip =
      (if c = '\n' then false
       else if skip then unterminatedScan cs false
       else if c = '\\' then unterminatedScan cs true
       else if c = '"' then false
       else unterminatedScan cs false) := rfl

theorem stringLoop_unterminated (lx : Lexer) :
    ∀ (rest : List Char) (n : Nat) (skip : Bool), unterminatedScan rest skip = true →
      stringLoop lx rest n skip =
        mk_error lx "Undetermined string literal" (lx.start.take (n + rest.length)) := by
  intro rest
  induction rest with
  | nil =>
    intro n skip _
    rw [stringLoop_nil]
    simp
  | cons c cs ih =>
    intro n skip hu
    rw [unterminatedScan_cons] at hu
    rw [stringLoop_cons]
    have harith : n + 1 + cs.length = n + (c :: cs).length := by
      rw [List.length_cons]
      omega
    by_cases hnl : c = '\n'
    · rw [if_pos hnl] at hu
      exact Bool.noConfusion hu
    · rw [if_neg hnl] at hu
      rw [if_neg hnl]
      by_cases hsk : skip = true
      · rw [if_pos hsk] at hu ⊢
        rw [ih (n + 1) false hu, harith]
      · rw [if_neg hsk] at hu ⊢
        by_cases hbs : c = '\\'
        · rw [if_pos hbs] at hu ⊢
          rw [ih (n + 1) true hu, harith]
        · rw [if_neg hbs] at hu ⊢
          by_cases hq : c = '"'
          · rw [if_pos hq] at hu
            exact Bool.noConfusion hu
          · rw [if_neg hq] at hu ⊢
            rw [ih (n + 1) false hu, harith]

/-- C8 counterexample: the unterminated multi-byte string `  "泥嚎  ` does
yield a lexical error token, but its message is the code's
"Undetermined string literal", not the claimed "unterminated string
literal". -/
theorem undetermined_message_cx :
    next_token (initLexer [' ', ' ', '"', '泥', '嚎', ' ', ' ']) =
      some (Lexer.mk [] 1 8 true,
        some (Token.mk (Meta.error "Undetermined string literal")
          ['"', '泥', '嚎', ' ', ' '] 1 3)) ∧
    "Undetermined string literal" ≠ "unterminated string literal" :=
  ⟨rfl, by decide⟩

/-- C8 (amended): whenever the character after the whitespace run is an
opening quote that is never matched by an unescaped closing quote before
the input ends (and no raw newline intervenes) — multi-byte content
included — the lexer yields a lexical error token whose message is
"Undetermined string literal" (the code's spelling), whose literal is the
whole remaining input, at the current position. -/
theorem unterminated_string_amended :
    ∀ lx : Lexer, lx.done = false → lx.start.head? = some '"' →
      unterminatedScan (lx.start.drop 1) false = true →
      next_token lx =
        some (emit (mk_error lx "Undetermined string literal" lx.start)) := by
  intro lx hd hh hu
  have hsw := skip_whitespaces_noop hd hh (by decide)
  rw [next_token_eq hd hsw]
  cases hs : lx.start with
  | nil =>
    rw [hs] at hh
    exact Option.noConfusion hh
  | cons c0 t =>
    have hc0 : c0 = '"' := by
      rw [hs] at hh
      exact Option.some_inj.mp hh
    subst hc0
    rw [dispatch_cons hs]
    unfold dispatchChar
    rw [if_neg (by decide), if_neg (by decide), if_neg (by decide), if_neg (by decide),
      if_neg (by decide), if_neg (by decide), if_neg (by decide), if_pos rfl]
    suffices hsc : stringScan lx = mk_error lx "Undetermined string literal" lx.start by
      rw [hsc, hs]
    unfold stringScan
    rw [stringLoop_unterminated lx (lx.start.drop 1) 1 false hu]
    have htake : lx.start.take (1 + (lx.start.drop 1).length) = lx.start := by
      rw [hs]
      show ('"' :: t).take (1 + t.length) = '"' :: t
      rw [Nat.add_comm, List.take_succ_cons, List.take_length]
    rw [htake]

/-- Witness for C8 (amended) at the concrete input `"泥`: an unterminated
string with multi-byte content yields the error token with the whole
remaining input as literal. -/
theorem unterminated_string_amended_witness :
    (initLexer ['"', '泥']).done = false ∧
    (initLexer ['"', '泥']).start.head? = some '"' ∧
    unterminatedScan ((initLexer ['"', '泥']).start.drop 1) false = true ∧
    next_token (initLexer ['"', '泥']) =
      some (emit (mk_error (initLexer ['"', '泥']) "Undetermined string literal"
        (initLexer ['"', '泥']).start)) :=
  ⟨rfl, rfl, rfl, unterminated_string_amended _ rfl rfl rfl⟩

/-! ## The identifier scan -/

theorem alpha_range {c : Char} (h : rustIsAlphabetic c = true) :
    (0x41 ≤ c.toNat ∧ c.toNat ≤ 0x5A) ∨ (0x61 ≤ c.toNat ∧ c.toNat ≤ 0x7A) ∨
    (0xC0 ≤ c.toNat ∧ c.toNat ≤ 0xD6) ∨ (0xD8 ≤ c.toNat ∧ c.toNat ≤ 0xF6) ∨
    (0xF8 ≤ c.toNat ∧ c.toNat ≤ 0x17F) ∨ (0x391 ≤ c.toNat ∧ c.toNat ≤ 0x3A1) ∨
    (0x3B1 ≤ c.toNat ∧ c.toNat ≤ 0x3C9) ∨ (0x410 ≤ c.toNat ∧ c.toNat ≤ 0x44F) ∨
    (0x3041 ≤ c.toNat ∧ c.toNat ≤ 0x3096) ∨ (0x30A1 ≤ c.toNat ∧ c.toNat ≤ 0x30FA) ∨
    (0x4E00 ≤ c.toNat ∧ c.toNat ≤ 0x9FFF) := by
  have h0 := h
  simp only [rustIsAlphabetic, Bool.or_eq_true, Bool.and_eq_true, decide_eq_true_eq] at h0
  omega

theorem ws_range {c : Char} (h : rustIsWhitespace c = true) :
    c.toNat = 0x09 ∨ c.toNat = 0x0A ∨ c.toNat = 0x0B ∨ c.toNat = 0x0C ∨ c.toNat = 0x0D ∨
    c.toNat = 0x20 ∨ c.toNat = 0x85 ∨ c.toNat = 0xA0 ∨ c.toNat = 0x1680 ∨
    (0x2000 ≤ c.toNat ∧ c.toNat ≤ 0x200A) ∨ c.toNat = 0x2028 ∨ c.toNat = 0x2029 ∨
    c.toNat = 0x202F ∨ c.toNat = 0x205F ∨ c.toNat = 0x3000 := by
  have h0 := h
  simp only [rustIsWhitespace, Bool.or_eq_true, Bool.and_eq_true, beq_iff_eq,
    decide_eq_true_eq] at h0
  omega

theorem alpha_not_ws {c : Char} (h : rustIsAlphabetic c = true) :
    rustIsWhitespace c = false := by
  cases hb : rustIsWhitespace c with
  | false => rfl
  | true =>
    exfalso
    have h1 := alpha_range h
    have h2 := ws_range hb
    omega

theorem alpha_not_digit10 {c : Char} (h : rustIsAlphabetic c = true) :
    isDigit10 c = false := by
  cases hb : isDigit10 c with
  | false => rfl
  | true =>
    exfalso
    have h1 := alpha_range h
    have h2 : 48 ≤ c.toNat ∧ c.toNat ≤ 57 := by
      simpa [isDigit10, Bool.and_eq_true, decide_eq_true_eq] using hb
    omega

theorem take_min_takeWhile (p : Char → Bool) :
    ∀ (l : List Char) (k : Nat),
      l.take (min (l.takeWhile p).length k) = (l.take k).takeWhile p := by
  intro l
  induction l with
  | nil => intro k; simp
  | cons c t ih =>
    intro k
    cases k with
    | zero => simp
    | succ k =>
      by_cases hp : p c = true
      · rw [List.takeWhile_cons_of_pos hp, List.length_cons, Nat.succ_min_succ,
          List.take_succ_cons, List.take_succ_cons, List.takeWhile_cons_of_pos hp, ih]
      · rw [List.takeWhile_cons_of_neg hp, List.take_succ_cons,
          List.takeWhile_cons_of_neg hp]
        simp

theorem identifier_lexeme (lx : Lexer) :
    (identifier lx).1.lexeme =
      (if (lx.start.take 5).takeWhile Char.isAlpha = "true".toList then Meta.boolLiteral true
       else if (lx.start.take 5).takeWhile Char.isAlpha = "false".toList then
         Meta.boolLiteral false
       else if (lx.start.take 5).takeWhile Char.isAlpha = "null".toList then Meta.nullLiteral
       else Meta.error "Unexpected identifier") := by
  have hid := take_min_takeWhile Char.isAlpha lx.start 5
  simp only [identifier]
  rw [hid]
  split_ifs <;> rfl

/-- C5 counterexample: the six-letter alphabetic run `falsey` is not a
keyword, yet the lexer emits the `false` literal token for its first five
letters instead of an "Unexpected identifier" error. -/
theorem identifier_falsey_cx :
    next_token (initLexer ['f', 'a', 'l', 's', 'e', 'y']) =
      some (Lexer.mk ['y'] 1 6 false,
        some (Token.mk (Meta.boolLiteral false) ['f', 'a', 'l', 's', 'e'] 1 1)) ∧
    (['f', 'a', 'l', 's', 'e', 'y'] : List Char).takeWhile Char.isAlpha =
      ['f', 'a', 'l', 's', 'e', 'y'] ∧
    (['f', 'a', 'l', 's', 'e', 'y'] : List Char) ≠ "true".toList ∧
    (['f', 'a', 'l', 's', 'e', 'y'] : List Char) ≠ "false".toList ∧
    (['f', 'a', 'l', 's', 'e', 'y'] : List Char) ≠ "null".toList :=
  ⟨rfl, rfl, by decide, by decide, by decide⟩

/-- C5 (amended): the identifier scan inspects at most the first five
characters — its token category is a function of the five-character prefix
of the remaining input; that category is determined by the
five-capped ASCII-alphabetic run `id`: exactly `id = true/false/null`
yield the literal tokens (so a longer run whose first five letters are
`false` yields the `false` literal), anything else the
"Unexpected identifier" error; and on any input whose first character is
alphabetic, `next_token` dispatches to this identifier scan. -/
theorem identifier_cap_amended :
    (∀ lx1 lx2 : Lexer, lx1.start.take 5 = lx2.start.take 5 →
       (identifier lx1).1.lexeme = (identifier lx2).1.lexeme) ∧
    (∀ lx : Lexer,
       (identifier lx).1.lexeme =
         (if (lx.start.take 5).takeWhile Char.isAlpha = "true".toList then
            Meta.boolLiteral true
          else if (lx.start.take 5).takeWhile Char.isAlpha = "false".toList then
            Meta.boolLiteral false
          else if (lx.start.take 5).takeWhile Char.isAlpha = "null".toList then
            Meta.nullLiteral
          else Meta.error "Unexpected identifier")) ∧
    (∀ (lx : Lexer) (c : Char), lx.done = false → lx.start.head? = some c →
       rustIsAlphabetic c = true → next_token lx = some (emit (identifier lx))) := by
  refine ⟨?_, identifier_lexeme, ?_⟩
  · intro lx1 lx2 h
    rw [identifier_lexeme, identifier_lexeme, h]
  · intro lx c hd hh ha
    have hsw := skip_whitespaces_noop hd hh (alpha_not_ws ha)
    rw [next_token_eq hd hsw]
    cases hs : lx.start with
    | nil =>
      rw [hs] at hh
      exact Option.noConfusion hh
    | cons c0 t =>
      have hc0 : c0 = c := by
        rw [hs] at hh
        exact Option.some_inj.mp hh
      subst hc0
      rw [dispatch_cons hs]
      unfold dispatchChar
      have hne : ∀ d : Char, rustIsAlphabetic d = false → c0 ≠ d := by
        intro d hdf hcd
        rw [hcd, hdf] at ha
        exact Bool.noConfusion ha
      have hdig : ¬ ((isDigit10 c0 || decide (c0 = '-')) = true) := by
        simp only [Bool.or_eq_true, decide_eq_true_eq]
        rintro (h10 | hm)
        · rw [alpha_not_digit10 ha] at h10
          exact Bool.noConfusion h10
        · exact hne '-' (by decide) hm
      rw [if_neg (hne '[' (by decide)), if_neg (hne ']' (by decide)),
        if_neg (hne lbrace (by decide)), if_neg (hne rbrace (by decide)),
        if_neg (hne ',' (by decide)), if_neg (hne ':' (by decide)),
        if_neg hdig, if_neg (hne '"' (by decide)), if_pos ha]

/-- Witness for C5 (amended): `falsey` and `falsex` agree on their first
five characters and receive the same token category, and `null` (whose
head is alphabetic) dispatches to the identifier scan. -/
theorem identifier_cap_amended_witness :
    (initLexer ['f', 'a', 'l', 's', 'e', 'y']).start.take 5 =
      (initLexer ['f', 'a', 'l', 's', 'e', 'x']).start.take 5 ∧
    (identifier (initLexer ['f', 'a', 'l', 's', 'e', 'y'])).1.lexeme =
      (identifier (initLexer ['f', 'a', 'l', 's', 'e', 'x'])).1.lexeme ∧
    (initLexer ['n', 'u', 'l', 'l']).done = false ∧
    (initLexer ['n', 'u', 'l', 'l']).start.head? = some 'n' ∧
    rustIsAlphabetic 'n' = true ∧
    next_token (initLexer ['n', 'u', 'l', 'l']) =
      some (emit (identifier (initLexer ['n', 'u', 'l', 'l']))) :=
  ⟨rfl, identifier_cap_amended.1 _ _ rfl, rfl, rfl, by decide,
   identifier_cap_amended.2.2 _ 'n' rfl rfl (by decide)⟩

/-! ## The number scan and float-grammar acceptance -/

theorem takeWhile_all {p : Char → Bool} :
    ∀ {l : List Char}, (∀ c ∈ l, p c = true) → l.takeWhile p = l := by
  intro l
  induction l with
  | nil => intro _; rfl
  | cons c t ih =>
    intro h
    rw [List.takeWhile_cons_of_pos (h c (List.mem_cons_self c t)),
      ih (fun d hd => h d (List.mem_cons_of_mem c hd))]

theorem takeWhile_append_stop {p : Char → Bool} {y : Char} {ys : List Char}
    (hy : p y = false) :
    ∀ xs : List Char, (∀ c ∈ xs, p c = true) → (xs ++ y :: ys).takeWhile p = xs := by
  intro xs
  induction xs with
  | nil =>
    intro _
    rw [List.nil_append, List.takeWhile_cons_of_neg (by simp [hy])]
  | cons c t ih =>
    intro h
    rw [List.cons_append, List.takeWhile_cons_of_pos (h c (List.mem_cons_self c t)),
      ih (fun d hd => h d (List.mem_cons_of_mem c hd))]

theorem take_takeWhile (p : Char → Bool) :
    ∀ l : List Char, l.take (l.takeWhile p).length = l.takeWhile p := by
  intro l
  induction l with
  | nil => rfl
  | cons c t ih =>
    by_cases hp : p c = true
    · rw [List.takeWhile_cons_of_pos hp, List.length_cons, List.take_succ_cons, ih]
    · rw [List.takeWhile_cons_of_neg hp]
      rfl

theorem takeWhile_append_drop (p : Char → Bool) (l : List Char) :
    l.takeWhile p ++ l.drop (l.takeWhile p).length = l := by
  conv_rhs => rw [← List.take_append_drop ((l.takeWhile p).length) l]
  rw [take_takeWhile]

theorem take_append_len (xs ys : List Char) (n : Nat) :
    (xs ++ ys).take (xs.length + n) = xs ++ ys.take n := by
  induction xs with
  | nil => simp
  | cons c t ih =>
    rw [List.cons_append, List.length_cons, Nat.succ_add, List.take_succ_cons, ih,
      List.cons_append]

theorem takeWhile_head {p : Char → Bool} {body : List Char}
    (hne : body.takeWhile p ≠ []) :
    ∃ c0 t0, body = c0 :: t0 ∧ p c0 = true ∧ body.takeWhile p = c0 :: t0.takeWhile p := by
  cases body with
  | nil => exact absurd rfl hne
  | cons c0 t0 =>
    by_cases hp : p c0 = true
    · exact ⟨c0, t0, rfl, hp, List.takeWhile_cons_of_pos hp⟩
    · rw [List.takeWhile_cons_of_neg hp] at hne
      exact absurd rfl hne

theorem not_isEmpty_ne {l : List Char} (h : (!l.isEmpty) = true) : l ≠ [] := by
  cases l with
  | nil => exact Bool.noConfusion h
  | cons c t => exact List.cons_ne_nil c t

theorem isDigit10_facts {c : Char} (h : isDigit10 c = true) :
    c ≠ 'e' ∧ c ≠ 'E' ∧ c ≠ '.' ∧ c ≠ '+' ∧ c ≠ '-' := by
  refine ⟨?_, ?_, ?_, ?_, ?_⟩ <;> (intro hc; subst hc; exact absurd h (by decide))

theorem isDigit10_notDot {c : Char} (h : isDigit10 c = true) : notDotChar c = true := by
  simp [notDotChar, (isDigit10_facts h).2.2.1]

theorem isDigit10_notExp {c : Char} (h : isDigit10 c = true) : notExpChar c = true := by
  simp [notExpChar, (isDigit10_facts h).1, (isDigit10_facts h).2.1]

theorem isDigits_mem {ds : List Char} (h : isDigits ds = true) :
    ∀ c ∈ ds, isDigit10 c = true := by
  intro c hc
  simpa using List.all_eq_true.mp (by simpa [isDigits] using h) c hc

theorem takeWhile_isDigits (l : List Char) :
    isDigits (l.takeWhile isDigit10) = true := by
  simp only [isDigits]
  rw [List.all_eq_true]
  intro x hx
  simpa using List.mem_takeWhile_imp hx

theorem mantissaOk_digits {ds : List Char} (hne : ds ≠ []) (hd : isDigits ds = true) :
    mantissaOk ds = true := by
  have hpre : ds.takeWhile notDotChar = ds :=
    takeWhile_all (fun c hc => isDigit10_notDot (isDigits_mem hd c hc))
  cases ds with
  | nil => exact absurd rfl hne
  | cons c0 t0 =>
    simp only [mantissaOk]
    rw [hpre, List.drop_length]
    exact hd

theorem mantissaOk_dot {ds1 ds2 : List Char} (h1 : ds1 ≠ []) (hd1 : isDigits ds1 = true)
    (hd2 : isDigits ds2 = true) : mantissaOk (ds1 ++ '.' :: ds2) = true := by
  have hpre : (ds1 ++ '.' :: ds2).takeWhile notDotChar = ds1 :=
    takeWhile_append_stop (by decide) ds1
      (fun c hc => isDigit10_notDot (isDigits_mem hd1 c hc))
  cases ds1 with
  | nil => exact absurd rfl h1
  | cons c0 t0 =>
    simp only [mantissaOk]
    rw [hpre, List.drop_left]
    show (isDigits (c0 :: t0) && isDigits ds2) = true
    rw [hd1, hd2]
    rfl

theorem takeWhile_notExp_digits {ds : List Char} (hd : isDigits ds = true) :
    ds.takeWhile notExpChar = ds :=
  takeWhile_all (fun c hc => isDigit10_notExp (isDigits_mem hd c hc))

theorem takeWhile_notExp_dot {ds1 ds2 : List Char} (hd1 : isDigits ds1 = true)
    (hd2 : isDigits ds2 = true) :
    (ds1 ++ '.' :: ds2).takeWhile notExpChar = ds1 ++ '.' :: ds2 :=
  takeWhile_all (fun c hc => by
    rcases List.mem_append.mp hc with h | h
    · exact isDigit10_notExp (isDigits_mem hd1 c h)
    · rcases List.mem_cons.mp h with h2 | h2
      · subst h2; rfl
      · exact isDigit10_notExp (isDigits_mem hd2 c h2))

theorem strip_sign_digit {s : List Char} {c : Char} (hh : s.head? = some c)
    (hc : isDigit10 c = true) :
    (if s.head? = some '+' ∨ s.head? = some '-' then s.drop 1 else s) = s := by
  rw [if_neg]
  rintro (h | h) <;>
    · rw [hh] at h
      have hce := Option.some_inj.mp h
      subst hce
      exact absurd hc (by decide)

theorem f64ParseOk_of_body {s b : List Char}
    (hstrip : (if s.head? = some '+' ∨ s.head? = some '-' then s.drop 1 else s) = b)
    (hb : b.takeWhile notExpChar = b) (hm : mantissaOk b = true) :
    f64ParseOk s = true := by
  simp only [f64ParseOk]
  rw [hstrip, hb, List.drop_length, hm]
  simp

theorem f64ParseOk_pre_body {pre b : List Char} (hpre : pre = [] ∨ pre = ['-'])
    (hbhead : ∃ c, b.head? = some c ∧ isDigit10 c = true)
    (hb : b.takeWhile notExpChar = b) (hm : mantissaOk b = true) :
    f64ParseOk (pre ++ b) = true := by
  rcases hpre with h | h <;> subst h
  · rw [List.nil_append]
    rcases hbhead with ⟨c, hc, hcd⟩
    exact f64ParseOk_of_body (strip_sign_digit hc hcd) hb hm
  · rw [List.singleton_append]
    refine f64ParseOk_of_body ?_ hb hm
    rw [if_pos (show ('-' :: b).head? = some '+' ∨ ('-' :: b).head? = some '-' from
      Or.inr rfl)]
    rfl

theorem numberTail_some {lx : Lexer} {neg : Nat} {s1 : List Char} {c : Char}
    (hs1 : s1 = lx.start.drop neg)
    (hpre : lx.start.take neg = [] ∨ lx.start.take neg = ['-'])
    (hh : s1.head? = some c) (hdc : isDigit10 c = true) :
    ∃ r, numberTail lx neg s1 = some r := by
  obtain ⟨t, ht⟩ : ∃ t, s1 = c :: t := by
    cases s1 with
    | nil => exact Option.noConfusion hh
    | cons c0 t0 =>
      have : c0 = c := Option.some_inj.mp hh
      exact ⟨t0, by rw [this]⟩
  have hds1c : s1.takeWhile isDigit10 = c :: t.takeWhile isDigit10 := by
    rw [ht, List.takeWhile_cons_of_pos hdc]
  have hds1_ne : s1.takeWhile isDigit10 ≠ [] := by
    rw [hds1c]
    exact List.cons_ne_nil _ _
  have hds1_dig : isDigits (s1.takeWhile isDigit10) = true := takeWhile_isDigits s1
  have hds1_head : (s1.takeWhile isDigit10).head? = some c := by
    rw [hds1c]
    rfl
  have hlit1 : lx.start.take (neg + (s1.takeWhile isDigit10).length) =
      lx.start.take neg ++ s1.takeWhile isDigit10 := by
    rw [List.take_add, ← hs1, take_takeWhile]
  simp only [numberTail]
  by_cases hdot : (s1.drop (s1.takeWhile isDigit10).length).head? = some '.'
  · rw [if_neg (not_not_intro hdot)]
    obtain ⟨s3, hs2⟩ : ∃ s3, s1.drop (s1.takeWhile isDigit10).length = '.' :: s3 := by
      cases hx : s1.drop (s1.takeWhile isDigit10).length with
      | nil =>
        rw [hx] at hdot
        exact Option.noConfusion hdot
      | cons a b =>
        rw [hx] at hdot
        have ha : a = '.' := Option.some_inj.mp hdot
        exact ⟨b, by rw [ha]⟩
    have hs3 : (s1.drop (s1.takeWhile isDigit10).length).drop 1 = s3 := by
      rw [hs2]
      rfl
    rw [hs3]
    split
    · exact ⟨_, rfl⟩
    · rename_i c2 h3
      by_cases hc2 : isDigit10 c2 = true
      · rw [if_neg (not_not_intro hc2)]
        have hds3c : ∃ t3 : List Char,
            s3.takeWhile isDigit10 = c2 :: t3.takeWhile isDigit10 := by
          cases s3 with
          | nil => exact Option.noConfusion h3
          | cons a3 b3 =>
            have : a3 = c2 := Option.some_inj.mp h3
            subst this
            exact ⟨b3, List.takeWhile_cons_of_pos hc2⟩
        obtain ⟨t3, ht3⟩ := hds3c
        have hds3_ne : s3.takeWhile isDigit10 ≠ [] := by
          rw [ht3]
          exact List.cons_ne_nil _ _
        have hds3_dig : isDigits (s3.takeWhile isDigit10) = true := takeWhile_isDigits s3
        have hsplit2 : (s1.drop (s1.takeWhile isDigit10).length).take
            (1 + (s3.takeWhile isDigit10).length) = '.' :: s3.takeWhile isDigit10 := by
          rw [hs2, Nat.add_comm, List.take_succ_cons, take_takeWhile]
        have hdecomp : s1.take ((s1.takeWhile isDigit10).length +
            (1 + (s3.takeWhile isDigit10).length)) =
            s1.takeWhile isDigit10 ++ '.' :: s3.takeWhile isDigit10 := by
          have h0 := take_append_len (s1.takeWhile isDigit10)
            (s1.drop (s1.takeWhile isDigit10).length) (1 + (s3.takeWhile isDigit10).length)
          rw [takeWhile_append_drop, hsplit2] at h0
          exact h0
        have hlit2 : lx.start.take (neg + (s1.takeWhile isDigit10).length + 1 +
            (s3.takeWhile isDigit10).length) =
            lx.start.take neg ++ (s1.takeWhile isDigit10 ++ '.' :: s3.takeWhile isDigit10) := by
          have harith : neg + (s1.takeWhile isDigit10).length + 1 +
              (s3.takeWhile isDigit10).length =
              neg + ((s1.takeWhile isDigit10).length +
                (1 + (s3.takeWhile isDigit10).length)) := by omega
          rw [harith, List.take_add, ← hs1, hdecomp]
        have hf : f64ParseOk (lx.start.take (neg + (s1.takeWhile isDigit10).length + 1 +
            (s3.takeWhile isDigit10).length)) = true := by
          rw [hlit2]
          refine f64ParseOk_pre_body hpre ⟨c, ?_, hdc⟩
            (takeWhile_notExp_dot hds1_dig hds3_dig)
            (mantissaOk_dot hds1_ne hds1_dig hds3_dig)
          rw [hds1c]
          rfl
        rw [if_pos hf]
        exact ⟨_, rfl⟩
      · rw [if_pos hc2]
        exact ⟨_, rfl⟩
  · rw [if_pos hdot]
    have hf : f64ParseOk (lx.start.take (neg + (s1.takeWhile isDigit10).length)) = true := by
      rw [hlit1]
      exact f64ParseOk_pre_body hpre ⟨c, hds1_head, hdc⟩
        (takeWhile_notExp_digits hds1_dig) (mantissaOk_digits hds1_ne hds1_dig)
    rw [if_pos hf]
    exact ⟨_, rfl⟩

theorem scanBody_f64 {pre body : List Char} (hpre : pre = [] ∨ pre = ['-'])
    (hne : body.takeWhile isDigit10 ≠ [])
    (hrest : (match body.drop (body.takeWhile isDigit10).length with
              | [] => true
              | r0 :: ds => decide (r0 = '.') && (!ds.isEmpty && isDigits ds)) = true) :
    f64ParseOk (pre ++ body) = true := by
  obtain ⟨c0, t0, hb, hp0, htw⟩ := takeWhile_head hne
  have hds_dig : isDigits (body.takeWhile isDigit10) = true := takeWhile_isDigits body
  have hhead : (body.takeWhile isDigit10).head? = some c0 := by
    rw [htw]
    rfl
  cases hr : body.drop (body.takeWhile isDigit10).length with
  | nil =>
    have hbody : body = body.takeWhile isDigit10 := by
      conv_lhs => rw [← takeWhile_append_drop isDigit10 body]
      rw [hr, List.append_nil]
    rw [show pre ++ body = pre ++ body.takeWhile isDigit10 from by rw [← hbody]]
    exact f64ParseOk_pre_body hpre ⟨c0, hhead, hp0⟩
      (takeWhile_notExp_digits hds_dig) (mantissaOk_digits hne hds_dig)
  | cons r0 ds =>
    rw [hr] at hrest
    have hrest2 : (decide (r0 = '.') && (!ds.isEmpty && isDigits ds)) = true := hrest
    rw [Bool.and_eq_true, Bool.and_eq_true, decide_eq_true_eq] at hrest2
    obtain ⟨hr0, _, hdig2⟩ := hrest2
    subst hr0
    have hbody : body = body.takeWhile isDigit10 ++ '.' :: ds := by
      conv_lhs => rw [← takeWhile_append_drop isDigit10 body]
      rw [hr]
    rw [show pre ++ body = pre ++ (body.takeWhile isDigit10 ++ '.' :: ds) from by
      rw [← hbody]]
    refine f64ParseOk_pre_body hpre ⟨c0, ?_, hp0⟩
      (takeWhile_notExp_dot hds_dig hdig2) (mantissaOk_dot hne hds_dig hdig2)
    rw [htw]
    rfl

theorem scanGrammar_f64 : ∀ l : List Char, scanGrammar l = true → f64ParseOk l = true := by
  intro l hl
  simp only [scanGrammar] at hl
  rw [Bool.and_eq_true] at hl
  obtain ⟨hne', hrest⟩ := hl
  by_cases hsign : l.head? = some '-'
  · rw [if_pos hsign] at hne' hrest
    obtain ⟨t0, hl0⟩ : ∃ t0, l = '-' :: t0 := by
      cases l with
      | nil => exact Option.noConfusion hsign
      | cons a b =>
        have : a = '-' := Option.some_inj.mp hsign
        exact ⟨b, by rw [this]⟩
    have hdrop : l.drop 1 = t0 := by
      rw [hl0]
      rfl
    rw [hdrop] at hne' hrest
    rw [hl0]
    show f64ParseOk (['-'] ++ t0) = true
    exact scanBody_f64 (Or.inr rfl) (not_isEmpty_ne hne') hrest
  · rw [if_neg hsign] at hne' hrest
    show f64ParseOk ([] ++ l) = true
    exact scanBody_f64 (Or.inl rfl) (not_isEmpty_ne hne') hrest

/-- C6: every literal slice accepted by the number-scan grammar (optional
leading `-`, one or more digits, optionally `.` and one or more digits)
is accepted by the `f64` conversion, and on any input whose first
character is a digit or `-` (the dispatch guard of the scan) the number
scan never reaches the `unwrap` panic — it always returns a token. -/
theorem number_scan_parse_ok :
    (∀ l : List Char, scanGrammar l = true → f64ParseOk l = true) ∧
    (∀ (lx : Lexer) (c : Char), lx.start.head? = some c →
       (isDigit10 c = true ∨ c = '-') → ∃ r, number lx = some r) := by
  refine ⟨scanGrammar_f64, ?_⟩
  intro lx c hh hcase
  unfold number
  by_cases hminus : lx.start.head? = some '-'
  · rw [if_pos hminus]
    split
    · exact ⟨_, rfl⟩
    · rename_i c2 h2
      by_cases hc2 : isDigit10 c2 = true
      · rw [if_neg (not_not_intro hc2)]
        have htake1 : lx.start.take 1 = ['-'] := by
          cases hs : lx.start with
          | nil =>
            rw [hs] at hminus
            exact Option.noConfusion hminus
          | cons a b =>
            rw [hs] at hminus
            have : a = '-' := Option.some_inj.mp hminus
            rw [this]
            rfl
        exact numberTail_some rfl (Or.inr htake1) h2 hc2
      · rw [if_pos hc2]
        exact ⟨_, rfl⟩
  · rw [if_neg hminus]
    have hcd : isDigit10 c = true := by
      rcases hcase with h | h
      · exact h
      · rw [h] at hh
        exact absurd hh hminus
    exact numberTail_some (by rw [List.drop_zero]) (Or.inl rfl) hh hcd

/-- Witness for C6: `-42.5` is accepted by the scan grammar and by the
float conversion, and scanning the digit input `7` produces a token. -/
theorem number_scan_parse_ok_witness :
    scanGrammar ['-', '4', '2', '.', '5'] = true ∧
    f64ParseOk ['-', '4', '2', '.', '5'] = true ∧
    (initLexer ['7']).start.head? = some '7' ∧
    (isDigit10 '7' = true ∨ '7' = '-') ∧
    (∃ r, number (initLexer ['7']) = some r) :=
  ⟨rfl, number_scan_parse_ok.1 _ rfl, rfl, Or.inl rfl,
   number_scan_parse_ok.2 _ '7' rfl (Or.inl rfl)⟩

end MiniJson
